import Mathlib

/-!
Verification development for a small in-memory ontology / relation store
with transitive reasoning queries.  Two Python modules are modelled:

* `Lab` embeds `lab_ontology.py`: a mutable `Ontology` object with
  `is_a` / `part_of` / `depends_on` edge maps, instance assignment,
  stack-based reachability (`_reachable`), instance lifting (`part_of`),
  labelled BFS path search (`any_path`), a depth probe
  (`max_depth_from`) and a structural validator (`validate`).

* `Src` embeds `src/ontology.py`: fixed global edge sets (`IS_A`,
  `PART_OF`, `HAS_PROPERTY`, `INSTANCE_OF`), alias resolution
  (`resolve`, which raises `KeyError` on unknown terms, modelled as
  `Except.error`), `is_a_transitive`, `has_part_transitive` (which hits
  an `AttributeError` on `deque.update`, modelled as `Except.error`) and
  relation-agnostic undirected `connected`.

Python sets and dicts are modelled as duplicate-free lists and
association lists; set insertion is insert-if-absent, dict update is
replace-or-append.  All traversal loops from the source are modelled as
total functions: loops whose termination follows from visited-set
bookkeeping are given well-founded recursion measures, and the one loop
with no visited set (`max_depth_from`) takes an explicit fuel argument
whose exhaustion (`none`) models divergence.
-/

set_option maxHeartbeats 1000000
set_option maxRecDepth 10000

namespace Onto

/-! ### Generic list helpers (model of Python set / dict operations) -/

/-- Insert into a set modelled as a duplicate-free list (Python `set.add`). -/
def insertNew (x : String) (l : List String) : List String :=
  if x ∈ l then l else l ++ [x]

/-- Insert an edge into an edge set (Python `set.add` on pairs); re-adding
an existing edge is a no-op. -/
def insertEdge (p : String × String) (l : List (String × String)) :
    List (String × String) :=
  if p ∈ l then l else l ++ [p]

/-- Lookup in an association list (Python `dict.get`). -/
def lookupAssoc (m : List (String × String)) (k : String) : Option String :=
  match m with
  | [] => none
  | (k', v') :: rest => if k' = k then some v' else lookupAssoc rest k

/-- Update an association list in place (Python `dict.__setitem__`):
replace the existing binding or append a new one. -/
def updateAssoc (m : List (String × String)) (k v : String) :
    List (String × String) :=
  match m with
  | [] => [(k, v)]
  | (k', v') :: rest =>
      if k' = k then (k, v) :: rest else (k', v') :: updateAssoc rest k v

/-- Direct targets of `x` in an edge list (Python `index.get(x, ())`). -/
def nbrs (edges : List (String × String)) (x : String) : List String :=
  (edges.filter (fun e => e.1 = x)).map (fun e => e.2)

/-- Number of edges whose `f`-side is not yet in `seen`; this is the
potential used by the termination measures of the visited-set loops. -/
def countNew {β : Type} (f : β → String) (seen : List String) :
    List β → Nat
  | [] => 0
  | e :: rest => (if f e ∈ seen then 0 else 1) + countNew f seen rest

/-- Number of edges keyed by exactly `x`. -/
def countKeyEq {β : Type} (f : β → String) (x : String) : List β → Nat
  | [] => 0
  | e :: rest => (if f e = x then 1 else 0) + countKeyEq f x rest

/-- Marking a fresh key `x` as seen removes exactly the edges keyed by `x`
from the unseen-edge count. -/
theorem countNew_cons {β : Type} (f : β → String) (edges : List β)
    (x : String) (seen : List String) (hx : x ∉ seen) :
    countNew f (x :: seen) edges + countKeyEq f x edges
      = countNew f seen edges := by
  induction edges with
  | nil => simp [countNew, countKeyEq]
  | cons e rest ih =>
    simp only [countNew, countKeyEq] at ih ⊢
    by_cases h1 : f e = x
    · have hmem : f e ∉ seen := h1 ▸ hx
      have h3 : f e ∈ x :: seen := by
        rw [h1]; exact List.mem_cons_self x seen
      rw [if_pos h3, if_neg hmem, if_pos h1]
      omega
    · by_cases h2 : f e ∈ seen
      · have h3 : f e ∈ x :: seen := List.mem_cons_of_mem x h2
        rw [if_pos h3, if_pos h2, if_neg h1]
        omega
      · have h3 : f e ∉ x :: seen := by
          intro hc
          rcases List.mem_cons.mp hc with h | h
          · exact h1 h
          · exact h2 h
        rw [if_neg h3, if_neg h2, if_neg h1]
        omega

theorem countNew_append {β : Type} (f : β → String) (seen : List String)
    (l1 l2 : List β) :
    countNew f seen (l1 ++ l2) = countNew f seen l1 + countNew f seen l2 := by
  induction l1 with
  | nil => simp [countNew]
  | cons e rest ih =>
    show (if f e ∈ seen then 0 else 1) + countNew f seen (rest ++ l2)
      = ((if f e ∈ seen then 0 else 1) + countNew f seen rest)
        + countNew f seen l2
    rw [ih]
    omega

theorem countNew_eq_zero {β : Type} (f : β → String) (seen : List String)
    {l : List β} (h : ∀ e ∈ l, f e ∈ seen) : countNew f seen l = 0 := by
  induction l with
  | nil => rfl
  | cons e rest ih =>
    have he : f e ∈ seen := h e (List.mem_cons_self _ _)
    simp only [countNew, if_pos he]
    rw [Nat.zero_add]
    exact ih (fun a ha => h a (List.mem_cons_of_mem _ ha))

theorem sum_filter_imp (g : String → Nat) (l : List String)
    (p q : String → Bool) (h : ∀ u, p u = true → q u = true) :
    ((l.filter p).map g).sum ≤ ((l.filter q).map g).sum := by
  induction l with
  | nil => simp
  | cons a rest ih =>
    by_cases hp : p a = true
    · have hq := h a hp
      simp only [List.filter_cons, hp, hq, if_pos, List.map_cons, List.sum_cons]
      omega
    · have hp' : p a = false := by
        cases hpa : p a
        · rfl
        · exact absurd hpa hp
      by_cases hq : q a = true
      · simp only [List.filter_cons, hp', hq, Bool.false_eq_true, if_false,
          if_pos, List.map_cons, List.sum_cons]
        omega
      · have hq' : q a = false := by
          cases hqa : q a
          · rfl
          · exact absurd hqa hq
        simp only [List.filter_cons, hp', hq', Bool.false_eq_true, if_false]
        exact ih

theorem sum_filter_drop (g : String → Nat) (l : List String) (x : String)
    (visited : List String) (hx : x ∈ l) (hv : x ∉ visited) :
    ((l.filter (fun u => u ∉ x :: visited)).map g).sum + g x
      ≤ ((l.filter (fun u => u ∉ visited)).map g).sum := by
  induction l with
  | nil => cases hx
  | cons a rest ih =>
    by_cases hax : a = x
    · subst hax
      have h1 : (decide (a ∉ a :: visited)) = false := by simp
      have h2 : (decide (a ∉ visited)) = true := by simpa using hv
      simp only [List.filter_cons, h1, h2, Bool.false_eq_true, if_false,
        if_pos, List.map_cons, List.sum_cons]
      have hmono := sum_filter_imp g rest
        (fun u => decide (u ∉ a :: visited)) (fun u => decide (u ∉ visited))
        (by
          intro u hu
          simp only [decide_eq_true_eq] at hu ⊢
          exact fun hc => hu (List.mem_cons_of_mem _ hc))
      omega
    · have hx' : x ∈ rest := by
        rcases List.mem_cons.mp hx with h | h
        · exact absurd h.symm hax
        · exact h
      by_cases hav : a ∈ visited
      · have h1 : (decide (a ∉ x :: visited)) = false := by
          simp [List.mem_cons_of_mem, hav]
        have h2 : (decide (a ∉ visited)) = false := by simp [hav]
        simp only [List.filter_cons, h1, h2, Bool.false_eq_true, if_false]
        exact ih hx'
      · have h1 : (decide (a ∉ x :: visited)) = true := by
          simp only [decide_eq_true_eq]
          intro hc
          rcases List.mem_cons.mp hc with h | h
          · exact hax h
          · exact hav h
        have h2 : (decide (a ∉ visited)) = true := by simpa using hav
        simp only [List.filter_cons, h1, h2, if_pos, List.map_cons,
          List.sum_cons]
        have := ih hx'
        omega

theorem countKeyEq_eq_filter_length {β : Type} (f : β → String) (x : String)
    (l : List β) :
    (l.filter (fun e => f e = x)).length = countKeyEq f x l := by
  induction l with
  | nil => simp [countKeyEq]
  | cons e rest ih =>
    by_cases h : f e = x <;>
      simp [List.filter_cons, h, countKeyEq, ih] <;> omega

/-- The length of `nbrs edges x` is the number of edges with source `x`. -/
theorem nbrs_length (edges : List (String × String)) (x : String) :
    (nbrs edges x).length = countKeyEq Prod.fst x edges := by
  rw [nbrs, List.length_map, countKeyEq_eq_filter_length Prod.fst x edges]

/-- `y` is a direct neighbor of `x` iff `(x, y)` is a stored edge. -/
theorem mem_nbrs (edges : List (String × String)) (x y : String) :
    y ∈ nbrs edges x ↔ (x, y) ∈ edges := by
  simp only [nbrs, List.mem_map, List.mem_filter, decide_eq_true_eq]
  constructor
  · rintro ⟨⟨e1, e2⟩, ⟨he, hfst⟩, hsnd⟩
    simp only at hfst hsnd
    subst hfst
    subst hsnd
    exact he
  · intro h
    exact ⟨(x, y), ⟨h, rfl⟩, rfl⟩

/-- Measure step for a visited-set loop that appends the source-keyed
neighbor block of a fresh node at the end of the queue. -/
theorem bfs_measure_fst (edges : List (String × String)) (x : String)
    (visited rest : List String) (hx : x ∉ visited) :
    (rest ++ nbrs edges x).length + countNew Prod.fst (x :: visited) edges
      < (x :: rest).length + countNew Prod.fst visited edges := by
  have h := countNew_cons Prod.fst edges x visited hx
  have h2 := nbrs_length edges x
  simp only [List.length_append, List.length_cons]
  omega

/-! ### `Lab`: model of `lab_ontology.py` -/

namespace Lab

/-- Names of the three stored relations (keys of the Python `self.rels`
dict, in insertion order `is_a`, `part_of`, `depends_on`). -/
inductive RelName : Type
  | is_a : RelName
  | part_of : RelName
  | depends_on : RelName
deriving DecidableEq, Repr

/-- The `Ontology` object of `lab_ontology.py`: class / instance sets,
the instance-to-class assignment dict, and one edge multimap per
relation (each `defaultdict(set)` modelled as a duplicate-free edge
list). -/
structure Ontology : Type where
  classes : List String
  instances : List String
  instance_of : List (String × String)
  isaEdges : List (String × String)
  partOfEdges : List (String × String)
  dependsOnEdges : List (String × String)
deriving DecidableEq, Repr

/-- `Ontology.__init__`: everything empty. -/
def Ontology.empty : Ontology := ⟨[], [], [], [], [], []⟩

/-- `self.rels[relname]`. -/
def Ontology.rel (o : Ontology) : RelName → List (String × String)
  | .is_a => o.isaEdges
  | .part_of => o.partOfEdges
  | .depends_on => o.dependsOnEdges

/-- `add_class`. -/
def Ontology.add_class (o : Ontology) (c : String) : Ontology :=
  { o with classes := insertNew c o.classes }

/-- `add_is_a`: registers both endpoints as classes, inserts the edge. -/
def Ontology.add_is_a (o : Ontology) (child parent : String) : Ontology :=
  let o := (o.add_class child).add_class parent
  { o with isaEdges := insertEdge (child, parent) o.isaEdges }

/-- `add_part_of`. -/
def Ontology.add_part_of (o : Ontology) (part whole : String) : Ontology :=
  let o := (o.add_class part).add_class whole
  { o with partOfEdges := insertEdge (part, whole) o.partOfEdges }

/-- `add_depends_on`. -/
def Ontology.add_depends_on (o : Ontology) (a b : String) : Ontology :=
  let o := (o.add_class a).add_class b
  { o with dependsOnEdges := insertEdge (a, b) o.dependsOnEdges }

/-- `add_instance`: registers the class, adds the instance id to the
instance set and (unconditionally) records `instance_of[inst] = clazz`;
there is no duplicate check in the source. -/
def Ontology.add_instance (o : Ontology) (inst clazz : String) : Ontology :=
  let o := o.add_class clazz
  { o with instances := insertNew inst o.instances,
           instance_of := updateAssoc o.instance_of inst clazz }

/-- The loop of `_reachable`: stack-based search with a `seen` set.  The
Python loop pops from the end of a list and appends neighbors at the
end; we model the stack with head access and prepend the neighbor block,
which only permutes the visiting order and does not change the returned
boolean (the loop returns true iff the target is ever popped, i.e. iff
it is the start or a stored edge reaches it from an unseen node). -/
def reachAux (edges : List (String × String)) (target : String)
    (stack : List String) (seen : List String) : Bool :=
  match stack with
  | [] => false
  | x :: rest =>
      if x = target then true
      else if hx : x ∈ seen then reachAux edges target rest seen
      else reachAux edges target (nbrs edges x ++ rest) (x :: seen)
termination_by stack.length + countNew Prod.fst seen edges
decreasing_by
  · simp only [List.length_cons]
    omega
  · have h := countNew_cons Prod.fst edges x seen hx
    have h2 := nbrs_length edges x
    simp only [List.length_append, List.length_cons]
    omega

/-- `_reachable(self, start, target, relname)`. -/
def Ontology.reachable (o : Ontology) (start target : String)
    (relname : RelName) : Bool :=
  reachAux (o.rel relname) target [start] []

/-- `is_a(self, child, parent)` query. -/
def Ontology.is_a (o : Ontology) (child parent : String) : Bool :=
  o.reachable child parent .is_a

/-- The one-shot instance lifting used by `part_of`:
`self.instance_of.get(x, x) if x in self.instances else x`. -/
def Ontology.liftInstance (o : Ontology) (x : String) : String :=
  if x ∈ o.instances then (lookupAssoc o.instance_of x).getD x else x

/-- `part_of(self, part, whole)`: direct reachability first, then both
operands lifted to their classes and the check retried. -/
def Ontology.part_of (o : Ontology) (part whole : String) : Bool :=
  if o.reachable part whole .part_of then true
  else
    let a := o.liftInstance part
    let b := o.liftInstance whole
    o.reachable a b .part_of

/-- `depends_on(self, a, b)` query. -/
def Ontology.depends_on (o : Ontology) (a b : String) : Bool :=
  o.reachable a b .depends_on

/-- `subclasses(self, c)`: sources of `is_a` edges into `c`. -/
def Ontology.subclasses (o : Ontology) (c : String) : List String :=
  (o.isaEdges.filter (fun e => e.2 = c)).map (fun e => e.1)

/-- `is_leaf_class(self, c)`. -/
def Ontology.is_leaf_class (o : Ontology) (c : String) : Bool :=
  (o.subclasses c).length = 0

/-- `instances_of(self, c)`: instance ids assigned exactly to `c`. -/
def Ontology.instances_of (o : Ontology) (c : String) : List String :=
  (o.instance_of.filter (fun e => e.2 = c)).map (fun e => e.1)

/-- `class_of(self, inst)`. -/
def Ontology.class_of (o : Ontology) (inst : String) : Option String :=
  lookupAssoc o.instance_of inst

/-- `is_class(self, x)`. -/
def Ontology.is_class (o : Ontology) (x : String) : Bool := x ∈ o.classes

/-- `is_instance(self, x)`. -/
def Ontology.is_instance (o : Ontology) (x : String) : Bool := x ∈ o.instances

/-! #### `any_path` -/

/-- Predecessor map of `any_path` (the Python dict `prev`): a node maps
to the `(node, relation)` edge that first reached it, `none` for the
start node.  New entries are consed at the front, so a predecessor is
always an older (deeper) entry than its successor; keys are unique
because a node is only added when absent. -/
abbrev Prev := List (String × Option (String × RelName))

/-- Keys of the predecessor map (Python `y not in prev`). -/
def prevKeys (prev : Prev) : List String := prev.map (fun e => e.1)

/-- All stored edges, in the relation iteration order of the Python
`self.rels` dict: `is_a`, `part_of`, `depends_on`. -/
def Ontology.allEdges (o : Ontology) : List (String × String) :=
  o.isaEdges ++ o.partOfEdges ++ o.dependsOnEdges

/-- Labelled out-neighbors of `x`, iterating relations in dict insertion
order (`for relname, graph in self.rels.items()`). -/
def Ontology.labeledNbrs (o : Ontology) (x : String) :
    List (RelName × String) :=
  (nbrs o.isaEdges x).map (fun y => (RelName.is_a, y))
    ++ (nbrs o.partOfEdges x).map (fun y => (RelName.part_of, y))
    ++ (nbrs o.dependsOnEdges x).map (fun y => (RelName.depends_on, y))

/-- Inner neighbor loop of `any_path`: for each labelled neighbor of `x`
not yet in `prev`, record its predecessor edge and append it to the
queue additions `acc`. -/
def pushNbrs (x : String) : List (RelName × String) → Prev → List String →
    Prev × List String
  | [], prev, acc => (prev, acc)
  | (r, y) :: rest, prev, acc =>
      if y ∈ prevKeys prev then pushNbrs x rest prev acc
      else pushNbrs x rest ((y, some (x, r)) :: prev) (acc ++ [y])

/-- Path reconstruction of `any_path`: walk predecessor pointers from
`cur` back to the start, collecting `(pred, rel, node)` triples, in
forward order (the Python loop collects them backward and reverses).
The Python loop looks `cur` up in the whole dict; since keys are unique
and a predecessor is always an older entry than its successor, looking
the predecessor up in the remaining older suffix is equivalent and makes
the recursion structural. -/
def walkPath : Prev → String → List (String × RelName × String)
  | [], _ => []
  | (k, e) :: rest, cur =>
      if k = cur then
        match e with
        | none => []
        | some (p, r) => walkPath rest p ++ [(p, r, cur)]
      else walkPath rest cur

theorem countKeyEq_pos {β : Type} (f : β → String) (x : String) {l : List β}
    {e : β} (he : e ∈ l) (hx : f e = x) : 1 ≤ countKeyEq f x l := by
  induction l with
  | nil => cases he
  | cons a rest ih =>
    rcases List.mem_cons.mp he with h | h
    · subst h
      simp only [countKeyEq, if_pos hx]
      omega
    · have := ih h
      simp only [countKeyEq]
      omega

/-- Processing one node's neighbor block does not increase the BFS
potential `|queue additions| + |edges into undiscovered nodes|`. -/
theorem pushNbrs_measure (x : String) (allE : List (String × String))
    (L : List (RelName × String)) (prev : Prev) (acc : List String)
    (hL : ∀ p ∈ L, (x, p.2) ∈ allE) :
    (pushNbrs x L prev acc).2.length
      + countNew Prod.snd (prevKeys (pushNbrs x L prev acc).1) allE
    ≤ acc.length + countNew Prod.snd (prevKeys prev) allE := by
  induction L generalizing prev acc with
  | nil => simp [pushNbrs]
  | cons p rest ih =>
    obtain ⟨r, y⟩ := p
    simp only [pushNbrs]
    by_cases hy : y ∈ prevKeys prev
    · rw [if_pos hy]
      exact ih prev acc (fun q hq => hL q (List.mem_cons_of_mem _ hq))
    · rw [if_neg hy]
      have hedge : (x, y) ∈ allE := hL (r, y) (List.mem_cons_self _ _)
      have hpos : 1 ≤ countKeyEq Prod.snd y allE :=
        countKeyEq_pos Prod.snd y hedge rfl
      have hcons := countNew_cons Prod.snd allE y (prevKeys prev) hy
      have hih := ih ((y, some (x, r)) :: prev) (acc ++ [y])
        (fun q hq => hL q (List.mem_cons_of_mem _ hq))
      have hkeys : prevKeys ((y, some (x, r)) :: prev) = y :: prevKeys prev := rfl
      rw [hkeys] at hih
      simp only [List.length_append, List.length_cons, List.length_nil] at hih ⊢
      omega

/-- Every labelled neighbor of `x` is a stored edge from `x`. -/
theorem labeledNbrs_sub (o : Ontology) (x : String) :
    ∀ p ∈ o.labeledNbrs x, (x, p.2) ∈ o.allEdges := by
  rintro ⟨r, y⟩ hp
  simp only [Ontology.labeledNbrs, List.mem_append, List.mem_map] at hp
  simp only [Ontology.allEdges, List.mem_append]
  rcases hp with (⟨z, hz, he⟩ | ⟨z, hz, he⟩) | ⟨z, hz, he⟩ <;>
    injection he with h1 h2 <;> subst h2
  · exact Or.inl (Or.inl ((mem_nbrs _ _ _).mp hz))
  · exact Or.inl (Or.inr ((mem_nbrs _ _ _).mp hz))
  · exact Or.inr ((mem_nbrs _ _ _).mp hz)

/-- The BFS loop of `any_path`: pop a node; on reaching the target,
reconstruct the path from the predecessor map; otherwise push the
undiscovered labelled neighbors.  (The Python queue stores `(node, rel)`
pairs but only uses the node on pop.) -/
def anyPathAux (o : Ontology) (b : String) (queue : List String)
    (prev : Prev) : Option (List (String × RelName × String)) :=
  match queue with
  | [] => none
  | x :: q =>
      if x = b then some (walkPath prev b)
      else
        anyPathAux o b (q ++ (pushNbrs x (o.labeledNbrs x) prev []).2)
          (pushNbrs x (o.labeledNbrs x) prev []).1
termination_by queue.length + countNew Prod.snd (prevKeys prev) o.allEdges
decreasing_by
  have h := pushNbrs_measure x o.allEdges (o.labeledNbrs x) prev []
    (labeledNbrs_sub o x)
  simp only [List.length_append, List.length_cons, List.length_nil] at h ⊢
  omega

/-- `any_path(self, a, b)`. -/
def Ontology.any_path (o : Ontology) (a b : String) :
    Option (List (String × RelName × String)) :=
  anyPathAux o b [a] [(a, none)]

/-! #### `max_depth_from` and `validate` -/

/-- The stack loop of `max_depth_from`.  The source tracks no visited
set, so on a cyclic inverted-`is_a` graph the Python loop diverges; the
`fuel` argument bounds the number of iterations and `none` models
divergence (ample fuel makes it `some` on the acyclic stores of the
claims). -/
def maxDepthAux (o : Ontology) : Nat → List (String × Nat) → Nat → Option Nat
  | _, [], best => some best
  | 0, _ :: _, _ => none
  | fuel + 1, (node, d) :: stack, best =>
      maxDepthAux o fuel
        ((o.subclasses node).map (fun ch => (ch, d + 1)) ++ stack)
        (max best d)

/-- `max_depth_from(self, root)`: DFS over the inverted `is_a` graph,
tracking the maximal depth reached (the root counts as depth 1). -/
def Ontology.max_depth_from (o : Ontology) (root : String) (fuel : Nat) :
    Option Nat :=
  if root ∈ o.classes then maxDepthAux o fuel [(root, 1)] 0 else some 0

/-- `validate(self)`: the three structural assertions in order (class
count, depth from "Computer Science", instances per leaf class); the
error value carries the assertion message (source messages use the
unicode `≥`; the model uses ASCII `>=`).  `none` models divergence of
the depth probe. -/
def Ontology.validate (o : Ontology) (fuel : Nat) :
    Option (Except String Bool) :=
  if o.classes.length ≥ 20 then
    match o.max_depth_from "Computer Science" fuel with
    | none => none
    | some d =>
        if d ≥ 4 then
          match (o.classes.filter (fun c => o.is_leaf_class c)).find?
              (fun c => (o.instances_of c).length < 2) with
          | some c =>
              some (Except.error ("Leaf \"" ++ c ++ "\" must have >=2 instances (has "
                ++ toString (o.instances_of c).length ++ ")"))
          | none => some (Except.ok true)
        else some (Except.error "Need an is_a chain of depth >=4")
  else some (Except.error ("Need >=20 classes, have " ++ toString o.classes.length))

/-! #### Construction sequences and specification predicates -/

/-- The construction operations of the `Ontology` API; a list of these
models an arbitrary construction sequence. -/
inductive Op : Type
  | add_class : String → Op
  | add_is_a : String → String → Op
  | add_part_of : String → String → Op
  | add_depends_on : String → String → Op
  | add_instance : String → String → Op
deriving DecidableEq, Repr

/-- Apply one construction operation. -/
def applyOp (o : Ontology) : Op → Ontology
  | .add_class c => o.add_class c
  | .add_is_a a b => o.add_is_a a b
  | .add_part_of a b => o.add_part_of a b
  | .add_depends_on a b => o.add_depends_on a b
  | .add_instance i c => o.add_instance i c

/-- Run a construction sequence from the empty store. -/
def run (ops : List Op) : Ontology := ops.foldl applyOp Ontology.empty

/-- Identifiers an operation registers in the class set. -/
def Op.classArgs : Op → List String
  | .add_class c => [c]
  | .add_is_a a b => [a, b]
  | .add_part_of a b => [a, b]
  | .add_depends_on a b => [a, b]
  | .add_instance _ c => [c]

/-- Identifiers an operation registers in the instance set. -/
def Op.instArgs : Op → List String
  | .add_instance i _ => [i]
  | _ => []

/-- All class-position identifiers of a construction sequence. -/
def classArgsOf (ops : List Op) : List String :=
  (ops.map Op.classArgs).join

/-- All instance-position identifiers of a construction sequence. -/
def instArgsOf (ops : List Op) : List String :=
  (ops.map Op.instArgs).join

/-- Well-formedness invariant maintained by the construction operations:
every edge endpoint is a registered class and every recorded instance
assignment targets a registered class. -/
def Good (o : Ontology) : Prop :=
  (∀ e ∈ o.isaEdges, e.1 ∈ o.classes ∧ e.2 ∈ o.classes) ∧
  (∀ e ∈ o.partOfEdges, e.1 ∈ o.classes ∧ e.2 ∈ o.classes) ∧
  (∀ e ∈ o.dependsOnEdges, e.1 ∈ o.classes ∧ e.2 ∈ o.classes) ∧
  (∀ e ∈ o.instance_of, e.2 ∈ o.classes)

/-- One directed hop over the union of all stored relations. -/
def Ontology.step (o : Ontology) (x y : String) : Prop :=
  (x, y) ∈ o.isaEdges ∨ (x, y) ∈ o.partOfEdges ∨ (x, y) ∈ o.dependsOnEdges

/-- Reachability over the union of all relations, directed as stored. -/
def Ontology.ReachU (o : Ontology) (a b : String) : Prop :=
  Relation.ReflTransGen o.step a b

/-- A valid labelled chain from `a` to `endv`: every `(s, r, t)` triple
is a stored edge of relation `r`, consecutive triples chain
source-to-target, the first source is `a` and the last target is
`endv` (an empty chain requires `endv = a`). -/
def ValidChain (o : Ontology) :
    String → List (String × RelName × String) → String → Prop
  | a, [], endv => endv = a
  | a, (s, r, t) :: rest, endv =>
      s = a ∧ (s, t) ∈ o.rel r ∧ ValidChain o t rest endv

end Lab

/-! ### `Src`: model of `src/ontology.py` (fixed global data) -/

namespace Src

/-- `CLASSES`. -/
def CLASSES : List String :=
  ["entity", "physical_object", "organism", "animal", "plant",
   "vertebrate", "invertebrate", "mammal", "bird", "fish", "reptile",
   "amphibian", "arthropod", "canine", "feline", "dog", "wolf", "fox",
   "cat", "lion", "sparrow", "eagle", "salmon", "tuna", "snake",
   "lizard", "spider", "beetle", "oak", "rose", "body_part",
   "appendage", "tail", "leg", "wing", "head", "eye", "fur", "feather",
   "fin", "scale", "skin"]

/-- `IS_A` edges, child to parent. -/
def IS_A : List (String × String) :=
  [("physical_object", "entity"), ("organism", "physical_object"),
   ("animal", "organism"), ("plant", "organism"),
   ("vertebrate", "animal"), ("invertebrate", "animal"),
   ("mammal", "vertebrate"), ("bird", "vertebrate"),
   ("fish", "vertebrate"), ("reptile", "vertebrate"),
   ("amphibian", "vertebrate"), ("arthropod", "invertebrate"),
   ("canine", "mammal"), ("feline", "mammal"), ("dog", "canine"),
   ("wolf", "canine"), ("fox", "canine"), ("cat", "feline"),
   ("lion", "feline"), ("sparrow", "bird"), ("eagle", "bird"),
   ("salmon", "fish"), ("tuna", "fish"), ("snake", "reptile"),
   ("lizard", "reptile"), ("spider", "arthropod"),
   ("beetle", "arthropod"), ("oak", "plant"), ("rose", "plant"),
   ("body_part", "physical_object"), ("appendage", "body_part"),
   ("tail", "appendage"), ("leg", "appendage"), ("wing", "appendage"),
   ("head", "body_part"), ("eye", "body_part"), ("fur", "body_part"),
   ("feather", "body_part"), ("fin", "appendage"),
   ("scale", "body_part"), ("skin", "body_part")]

/-- `PART_OF` edges, part to whole. -/
def PART_OF : List (String × String) :=
  [("head", "vertebrate"), ("eye", "head"), ("leg", "vertebrate"),
   ("skin", "vertebrate"), ("tail", "mammal"), ("tail", "reptile"),
   ("wing", "bird"), ("fin", "fish"), ("feather", "bird"),
   ("fur", "mammal"), ("scale", "reptile")]

/-- `HAS_PROPERTY` edges, subject to property. -/
def HAS_PROPERTY : List (String × String) :=
  [("tail", "fur"), ("wing", "feather"), ("snake", "scale"),
   ("fish", "fin")]

/-- `INSTANCE_OF` pairs, instance to class. -/
def INSTANCE_OF : List (String × String) :=
  [("rex", "dog"), ("bim", "dog"), ("murka", "cat"), ("simba", "cat"),
   ("akela", "wolf"), ("ghost", "wolf"), ("alisa", "fox"),
   ("todd", "fox"), ("mufasa", "lion"), ("nala", "lion"),
   ("chirpy", "sparrow"), ("jack", "sparrow"), ("freedom", "eagle"),
   ("storm", "eagle"), ("silver", "salmon"), ("red", "salmon"),
   ("bluefin", "tuna"), ("yellowfin", "tuna"), ("kaa", "snake"),
   ("viper", "snake"), ("gecko", "lizard"), ("iguana", "lizard"),
   ("charlotte", "spider"), ("aragog", "spider"), ("scarab", "beetle"),
   ("ladybug", "beetle"), ("oak1", "oak"), ("oak2", "oak"),
   ("rose1", "rose"), ("rose2", "rose")]

/-- `ALIASES`: Ukrainian and English surface forms to canonical atoms. -/
def ALIASES : List (String × String) :=
  [("собака", "dog"), ("пес", "dog"), ("dog", "dog"),
   ("кіт", "cat"), ("кішка", "cat"), ("cat", "cat"),
   ("вовк", "wolf"), ("wolf", "wolf"),
   ("лисиця", "fox"), ("fox", "fox"),
   ("лев", "lion"), ("lion", "lion"),
   ("птах", "bird"), ("bird", "bird"),
   ("риба", "fish"), ("fish", "fish"),
   ("ссавець", "mammal"), ("mammal", "mammal"),
   ("хребетний", "vertebrate"), ("vertebrate", "vertebrate"),
   ("безхребетний", "invertebrate"), ("invertebrate", "invertebrate"),
   ("плазун", "reptile"), ("reptile", "reptile"),
   ("земноводне", "amphibian"), ("amphibian", "amphibian"),
   ("горобець", "sparrow"), ("sparrow", "sparrow"),
   ("орел", "eagle"), ("eagle", "eagle"),
   ("лосось", "salmon"), ("salmon", "salmon"),
   ("тунець", "tuna"), ("tuna", "tuna"),
   ("змія", "snake"), ("snake", "snake"),
   ("ящірка", "lizard"), ("lizard", "lizard"),
   ("павук", "spider"), ("spider", "spider"),
   ("жук", "beetle"), ("beetle", "beetle"),
   ("дуб", "oak"), ("oak", "oak"),
   ("троянда", "rose"), ("rose", "rose"),
   ("хвіст", "tail"), ("tail", "tail"),
   ("шерсть", "fur"), ("fur", "fur"),
   ("перо", "feather"), ("feather", "feather"),
   ("крило", "wing"), ("wing", "wing"),
   ("око", "eye"), ("eye", "eye"),
   ("голова", "head"), ("head", "head"),
   ("луска", "scale"), ("scale", "scale"),
   ("шкіра", "skin"), ("skin", "skin")]

/-- Python `str.strip()`: remove leading and trailing whitespace. -/
def pyStrip (s : String) : String :=
  String.mk (((s.data.dropWhile Char.isWhitespace).reverse.dropWhile
    Char.isWhitespace).reverse)

/-- `resolve(name)`: alias table first, then canonical class names, then
identifiers occurring in `INSTANCE_OF`; a `KeyError` on unknown terms is
modelled as `Except.error`.  (The `TypeError` branch for non-string
arguments is ruled out by typing.) -/
def resolve (name : String) : Except String String :=
  let key := pyStrip name
  match lookupAssoc ALIASES key with
  | some v => Except.ok v
  | none =>
      if key ∈ CLASSES then Except.ok key
      else
        if key ∈ INSTANCE_OF.map Prod.fst ++ INSTANCE_OF.map Prod.snd then
          Except.ok key
        else Except.error ("Unknown term: " ++ name)

section
attribute [local irreducible] IS_A PART_OF

/-- The BFS loop of `is_a_transitive`: pop an unvisited node and scan
its direct parents; the Python loop returns the moment a parent equals
the ancestor (we test membership of the ancestor in the parent block,
which yields the same boolean), otherwise appends all parents. -/
def isaAux (ancestor : String) (queue visited : List String) : Bool :=
  match queue with
  | [] => false
  | node :: q =>
      if hnode : node ∈ visited then isaAux ancestor q visited
      else
        if ancestor ∈ nbrs IS_A node then true
        else isaAux ancestor (q ++ nbrs IS_A node) (node :: visited)
termination_by queue.length + countNew Prod.fst visited IS_A
decreasing_by
  all_goals first
    | (simp only [List.length_cons]; omega)
    | (exact bfs_measure_fst IS_A _ _ _ (by assumption))

/-- `is_a_transitive(child, ancestor)`: resolve both operands (the
`KeyError` of `resolve` propagates), then reflexive check, then BFS over
direct parents. -/
def is_a_transitive (child ancestor : String) : Except String Bool :=
  match resolve child with
  | Except.error e => Except.error e
  | Except.ok c =>
      match resolve ancestor with
      | Except.error e => Except.error e
      | Except.ok a =>
          if c = a then Except.ok true else Except.ok (isaAux a [c] [])

/-- `direct_parts` in `has_part_transitive`: sources of `PART_OF` edges
into `node`. -/
def directParts (node : String) : List String :=
  (PART_OF.filter (fun e => e.2 = node)).map Prod.fst

/-- `subclasses` in `has_part_transitive`: sources of `IS_A` edges into
`node`. -/
def subclassesOf (node : String) : List String :=
  (IS_A.filter (fun e => e.2 = node)).map Prod.fst

/-- Measure step for the `has_part_transitive` loop, whose fresh-node
expansion appends the subclass block. -/
theorem hpt_measure (x : String) (visited rest : List String)
    (hx : x ∉ visited) :
    (rest ++ subclassesOf x).length + countNew Prod.snd (x :: visited) IS_A
      < (x :: rest).length + countNew Prod.snd visited IS_A := by
  have h := countNew_cons Prod.snd IS_A x visited hx
  have h2 : (subclassesOf x).length = countKeyEq Prod.snd x IS_A := by
    rw [subclassesOf, List.length_map,
      countKeyEq_eq_filter_length Prod.snd x IS_A]
  simp only [List.length_append, List.length_cons]
  omega

/-- The `any(...)` generator in `has_part_transitive`: does some direct
part have the target part as an `is_a` descendant?  Errors of the inner
`is_a_transitive` calls propagate (they cannot occur on canonical
arguments). -/
def anySuper (part : String) : List String → Except String Bool
  | [] => Except.ok false
  | p :: rest =>
      match is_a_transitive part p with
      | Except.error e => Except.error e
      | Except.ok true => Except.ok true
      | Except.ok false => anySuper part rest

/-- The BFS loop of `has_part_transitive`.  For an unvisited node the
source computes its direct parts, accepts if the target part (or an
`is_a` ancestor of it) is among them, extends the deque with the node's
subclasses, and then runs `queue.update(child_wholes)` for each direct
part — but `collections.deque` has no `update` method, so whenever the
direct-part set is non-empty (and no accept fired) the loop raises
`AttributeError`, modelled as `Except.error`. -/
def hptAux (part : String) (queue visited : List String) :
    Except String Bool :=
  match queue with
  | [] => Except.ok false
  | node :: q =>
      if hnode : node ∈ visited then hptAux part q visited
      else
        if part ∈ directParts node then Except.ok true
        else
          match anySuper part (directParts node) with
          | Except.error e => Except.error e
          | Except.ok true => Except.ok true
          | Except.ok false =>
              if directParts node = [] then
                hptAux part (q ++ subclassesOf node) (node :: visited)
              else
                Except.error "AttributeError: deque object has no attribute update"
termination_by queue.length + countNew Prod.snd visited IS_A
decreasing_by
  all_goals first
    | (simp only [List.length_cons]; omega)
    | (exact hpt_measure _ _ _ (by assumption))

end

/-- `has_part_transitive(whole, part)`. -/
def has_part_transitive (whole part : String) : Except String Bool :=
  match resolve whole with
  | Except.error e => Except.error e
  | Except.ok w =>
      match resolve part with
      | Except.error e => Except.error e
      | Except.ok p => hptAux p [w] []

/-! #### `connected` -/

/-- All identifiers occurring on either side of any stored pair. -/
def allNodes : List String :=
  IS_A.map Prod.fst ++ IS_A.map Prod.snd ++ PART_OF.map Prod.fst
    ++ PART_OF.map Prod.snd ++ HAS_PROPERTY.map Prod.fst
    ++ HAS_PROPERTY.map Prod.snd ++ INSTANCE_OF.map Prod.fst
    ++ INSTANCE_OF.map Prod.snd

/-- The neighbor block yielded by the `neighbors(term)` generator for an
already-canonical term, in yield order: forward edges of the four
relations, then reverse `is_a` / `part_of` / `has_property` edges, then
for every `INSTANCE_OF` pair touching the term both its members. -/
def neighborsList (term : String) : List String :=
  nbrs IS_A term ++ nbrs PART_OF term ++ nbrs HAS_PROPERTY term
    ++ nbrs INSTANCE_OF term
    ++ (IS_A.filter (fun e => e.2 = term)).map Prod.fst
    ++ (PART_OF.filter (fun e => e.2 = term)).map Prod.fst
    ++ (HAS_PROPERTY.filter (fun e => e.2 = term)).map Prod.fst
    ++ ((INSTANCE_OF.filter (fun e => e.2 = term ∨ e.1 = term)).map
        (fun e => [e.1, e.2])).join

/-- `neighbors(term)`: resolves the term first (`KeyError` propagates as
`Except.error`), then yields the neighbor block of the canonical form. -/
def neighbors (term : String) : Except String (List String) :=
  match resolve term with
  | Except.error e => Except.error e
  | Except.ok t => Except.ok (neighborsList t)

/-- Does `resolve` map `u` to itself? -/
def isFixed (u : String) : Bool :=
  match resolve u with
  | Except.ok v => v = u
  | Except.error _ => false

theorem resolve_fixed_allNodes : allNodes.all isFixed = true := by decide

theorem resolve_of_mem_allNodes {u : String} (hu : u ∈ allNodes) :
    resolve u = Except.ok u := by
  have h := List.all_eq_true.mp resolve_fixed_allNodes u hu
  unfold isFixed at h
  cases hr : resolve u <;> rw [hr] at h
  · cases h
  · simp only [decide_eq_true_eq] at h
    rw [h]

/-- Static bound on the length of any neighbor block. -/
def NB : Nat :=
  2 * (IS_A.length + PART_OF.length + HAS_PROPERTY.length)
    + 3 * INSTANCE_OF.length

theorem joinPairs_length (l : List (String × String)) :
    ((l.map (fun e => [e.1, e.2])).join).length = 2 * l.length := by
  induction l with
  | nil => rfl
  | cons e rest ih => simp [ih]; omega

theorem neighborsList_length_le (t : String) :
    (neighborsList t).length ≤ NB := by
  have h8 := joinPairs_length
    (INSTANCE_OF.filter (fun e => decide (e.2 = t ∨ e.1 = t)))
  simp only [neighborsList, nbrs, NB, List.length_append, List.length_map]
  rw [h8]
  have g1 := List.length_filter_le
    (fun (e : String × String) => decide (e.1 = t)) IS_A
  have g2 := List.length_filter_le
    (fun (e : String × String) => decide (e.1 = t)) PART_OF
  have g3 := List.length_filter_le
    (fun (e : String × String) => decide (e.1 = t)) HAS_PROPERTY
  have g4 := List.length_filter_le
    (fun (e : String × String) => decide (e.1 = t)) INSTANCE_OF
  have g5 := List.length_filter_le
    (fun (e : String × String) => decide (e.2 = t)) IS_A
  have g6 := List.length_filter_le
    (fun (e : String × String) => decide (e.2 = t)) PART_OF
  have g7 := List.length_filter_le
    (fun (e : String × String) => decide (e.2 = t)) HAS_PROPERTY
  have g8 := List.length_filter_le
    (fun (e : String × String) => decide (e.2 = t ∨ e.1 = t)) INSTANCE_OF
  omega

theorem mem_allNodes_of {y : String}
    (h : y ∈ IS_A.map Prod.fst ∨ y ∈ IS_A.map Prod.snd
      ∨ y ∈ PART_OF.map Prod.fst ∨ y ∈ PART_OF.map Prod.snd
      ∨ y ∈ HAS_PROPERTY.map Prod.fst ∨ y ∈ HAS_PROPERTY.map Prod.snd
      ∨ y ∈ INSTANCE_OF.map Prod.fst ∨ y ∈ INSTANCE_OF.map Prod.snd) :
    y ∈ allNodes := by
  simp only [allNodes, List.mem_append]
  tauto

/-- Every member of a neighbor block occurs in `allNodes`. -/
theorem neighborsList_sub (t : String) :
    ∀ y ∈ neighborsList t, y ∈ allNodes := by
  intro y hy
  have hfwd : ∀ l : List (String × String),
      y ∈ nbrs l t → y ∈ l.map Prod.snd := by
    intro l h
    exact List.mem_map_of_mem Prod.snd ((mem_nbrs l t y).mp h)
  have hrev : ∀ (l : List (String × String)) (p : String × String → Bool),
      y ∈ (l.filter p).map Prod.fst → y ∈ l.map Prod.fst := by
    intro l p h
    rcases List.mem_map.mp h with ⟨e, he, hey⟩
    exact hey ▸ List.mem_map_of_mem Prod.fst (List.mem_of_mem_filter he)
  simp only [neighborsList, List.mem_append] at hy
  apply mem_allNodes_of
  rcases hy with ((((((h | h) | h) | h) | h) | h) | h) | h
  · exact Or.inr (Or.inl (hfwd _ h))
  · exact Or.inr (Or.inr (Or.inr (Or.inl (hfwd _ h))))
  · exact Or.inr (Or.inr (Or.inr (Or.inr (Or.inr (Or.inl (hfwd _ h))))))
  · exact Or.inr (Or.inr (Or.inr (Or.inr (Or.inr (Or.inr (Or.inr
      (hfwd _ h)))))))
  · exact Or.inl (hrev _ _ h)
  · exact Or.inr (Or.inr (Or.inl (hrev _ _ h)))
  · exact Or.inr (Or.inr (Or.inr (Or.inr (Or.inl (hrev _ _ h)))))
  · rcases List.mem_join.mp h with ⟨l, hl, hyl⟩
    rcases List.mem_map.mp hl with ⟨e, he, hel⟩
    have he' : e ∈ INSTANCE_OF := List.mem_of_mem_filter he
    rw [← hel] at hyl
    rcases List.mem_cons.mp hyl with h1 | h1
    · exact Or.inr (Or.inr (Or.inr (Or.inr (Or.inr (Or.inr (Or.inl
        (h1 ▸ List.mem_map_of_mem Prod.fst he')))))))
    · have h2 : y = e.2 := by simpa using h1
      exact Or.inr (Or.inr (Or.inr (Or.inr (Or.inr (Or.inr (Or.inr
        (h2 ▸ List.mem_map_of_mem Prod.snd he')))))))

/-- BFS potential for `connected`: for every not-yet-visited universe
node, one pop and one push per neighbor remain possible. -/
def potential (visited : List String) : Nat :=
  ((allNodes.filter (fun u => u ∉ visited)).map
    (fun u => 1 + (neighborsList u).length)).sum

theorem potential_mono (node : String) (visited : List String) :
    potential (node :: visited) ≤ potential visited :=
  sum_filter_imp _ allNodes _ _ (fun u hu => by
    simp only [decide_eq_true_eq] at hu ⊢
    exact fun hc => hu (List.mem_cons_of_mem _ hc))

theorem potential_drop (node : String) (visited : List String)
    (hn : node ∈ allNodes) (hv : node ∉ visited) :
    potential (node :: visited) + (1 + (neighborsList node).length)
      ≤ potential visited :=
  sum_filter_drop (fun u => 1 + (neighborsList u).length) allNodes node
    visited hn hv

theorem neighbors_ok {node : String} {ns : List String}
    (h : neighbors node = Except.ok ns) :
    ∃ t, resolve node = Except.ok t ∧ ns = neighborsList t := by
  unfold neighbors at h
  cases hr : resolve node <;> rw [hr] at h
  · cases h
  · injection h with h'
    exact ⟨_, rfl, h'.symm⟩

section
attribute [local irreducible] allNodes neighborsList potential NB resolve
  neighbors IS_A PART_OF HAS_PROPERTY INSTANCE_OF CLASSES ALIASES

/-- `connected` measure step: popping an already visited node. -/
theorem conn_measure_skip (x : String) (rest visited : List String) :
    countNew id allNodes rest * (NB + 1) + potential visited + rest.length
      < countNew id allNodes (x :: rest) * (NB + 1) + potential visited
        + (x :: rest).length := by
  have hc : countNew id allNodes (x :: rest)
      = (if x ∈ allNodes then 0 else 1) + countNew id allNodes rest := rfl
  by_cases hx : x ∈ allNodes
  · rw [hc, if_pos hx]
    simp only [Nat.zero_add, List.length_cons]
    omega
  · rw [hc, if_neg hx]
    have hmul : (1 + countNew id allNodes rest) * (NB + 1)
        = countNew id allNodes rest * (NB + 1) + (NB + 1) := by ring
    rw [hmul]
    simp only [List.length_cons]
    omega

/-- `connected` measure step: expanding a fresh node.  If the node is a
universe node its potential entry pays for the pushes; otherwise the
node came from the initial queue and the junk counter drops. -/
theorem conn_measure_push (x : String) (rest visited ns : List String)
    (hx : x ∉ visited) (hns : neighbors x = Except.ok ns) :
    countNew id allNodes (rest ++ ns.filter (fun y => y ∉ x :: visited))
          * (NB + 1)
        + potential (x :: visited)
        + (rest ++ ns.filter (fun y => y ∉ x :: visited)).length
      < countNew id allNodes (x :: rest) * (NB + 1) + potential visited
        + (x :: rest).length := by
  obtain ⟨t, hrt, hnst⟩ := neighbors_ok hns
  have hsub : ∀ y ∈ ns.filter (fun y => y ∉ x :: visited), y ∈ allNodes := by
    intro y hy
    exact neighborsList_sub t y (hnst ▸ List.mem_of_mem_filter hy)
  have hzero : countNew id allNodes
      (ns.filter (fun y => y ∉ x :: visited)) = 0 :=
    countNew_eq_zero id allNodes (fun e he => hsub e he)
  have happ := countNew_append id allNodes rest
    (ns.filter (fun y => y ∉ x :: visited))
  have hflen : (ns.filter (fun y => y ∉ x :: visited)).length ≤ ns.length :=
    List.length_filter_le _ _
  have hnb : ns.length ≤ NB := by
    rw [hnst]
    exact neighborsList_length_le t
  by_cases hxA : x ∈ allNodes
  · have hx2 : resolve x = Except.ok x := resolve_of_mem_allNodes hxA
    rw [hrt] at hx2
    injection hx2 with ht
    rw [ht] at hnst
    have hdrop := potential_drop x visited hxA hx
    rw [← hnst] at hdrop
    have hcx : countNew id allNodes (x :: rest)
        = countNew id allNodes rest := by
      show (if x ∈ allNodes then 0 else 1) + countNew id allNodes rest
        = countNew id allNodes rest
      rw [if_pos hxA]
      omega
    rw [happ, hzero, hcx]
    simp only [Nat.add_zero, List.length_append, List.length_cons]
    omega
  · have hcx : countNew id allNodes (x :: rest)
        = 1 + countNew id allNodes rest := by
      show (if x ∈ allNodes then 0 else 1) + countNew id allNodes rest
        = 1 + countNew id allNodes rest
      rw [if_neg hxA]
    have hpot := potential_mono x visited
    have hmul : (1 + countNew id allNodes rest) * (NB + 1)
        = countNew id allNodes rest * (NB + 1) + (NB + 1) := by ring
    rw [happ, hzero, hcx, hmul]
    simp only [Nat.add_zero, List.length_append, List.length_cons]
    omega

/-- The BFS loop of `connected`: pop a node, skip it if visited,
otherwise generate its neighbor block (this resolves the node and can in
principle propagate a `KeyError`), return true if the target occurs in
the block (the Python loop returns the moment `nxt == b`), and push the
block members not yet visited. -/
def connAux (b : String) (queue visited : List String) :
    Except String Bool :=
  match queue with
  | [] => Except.ok false
  | node :: q =>
      if hnode : node ∈ visited then connAux b q visited
      else
        match hns : neighbors node with
        | Except.error e => Except.error e
        | Except.ok ns =>
            if b ∈ ns then Except.ok true
            else
              connAux b (q ++ ns.filter (fun y => y ∉ node :: visited))
                (node :: visited)
termination_by
  countNew id allNodes queue * (NB + 1) + potential visited + queue.length
decreasing_by
  all_goals first
    | (exact conn_measure_skip _ _ _)
    | (exact conn_measure_push _ _ _ _ (by assumption) (by assumption))

/-- `connected(a, b)`: resolve both operands (`KeyError` propagates),
reflexive check on the canonical forms, then undirected BFS. -/
def connected (a b : String) : Except String Bool :=
  match resolve a with
  | Except.error e => Except.error e
  | Except.ok a2 =>
      match resolve b with
      | Except.error e => Except.error e
      | Except.ok b2 =>
          if a2 = b2 then Except.ok true else connAux b2 [a2] []

end

end Src

/-! ### Lemmas about the shared helpers -/

theorem mem_insertNew {z x : String} {l : List String} :
    z ∈ insertNew x l ↔ z = x ∨ z ∈ l := by
  unfold insertNew
  by_cases h : x ∈ l
  · rw [if_pos h]
    constructor
    · exact Or.inr
    · rintro (rfl | hz)
      · exact h
      · exact hz
  · rw [if_neg h]
    simp [List.mem_append, or_comm]

theorem subset_insertNew {z x : String} {l : List String} (h : z ∈ l) :
    z ∈ insertNew x l :=
  mem_insertNew.mpr (Or.inr h)

theorem mem_insertEdge {e p : String × String} {l : List (String × String)} :
    e ∈ insertEdge p l ↔ e = p ∨ e ∈ l := by
  unfold insertEdge
  by_cases h : p ∈ l
  · rw [if_pos h]
    constructor
    · exact Or.inr
    · rintro (rfl | hz)
      · exact h
      · exact hz
  · rw [if_neg h]
    simp [List.mem_append, or_comm]

theorem lookupAssoc_mem {m : List (String × String)} {k v : String}
    (h : lookupAssoc m k = some v) : (k, v) ∈ m := by
  induction m with
  | nil => cases h
  | cons e rest ih =>
    obtain ⟨k', v'⟩ := e
    unfold lookupAssoc at h
    by_cases hk : k' = k
    · rw [if_pos hk] at h
      injection h with hv
      exact List.mem_cons.mpr (Or.inl (by rw [hk, hv]))
    · rw [if_neg hk] at h
      exact List.mem_cons_of_mem _ (ih h)

theorem mem_updateAssoc {m : List (String × String)} {k v : String}
    {e : String × String} (h : e ∈ updateAssoc m k v) :
    e = (k, v) ∨ e ∈ m := by
  induction m with
  | nil =>
    unfold updateAssoc at h
    rcases List.mem_cons.mp h with h1 | h1
    · exact Or.inl h1
    · cases h1
  | cons p rest ih =>
    obtain ⟨k', v'⟩ := p
    unfold updateAssoc at h
    by_cases hk : k' = k
    · rw [if_pos hk] at h
      rcases List.mem_cons.mp h with h1 | h1
      · exact Or.inl h1
      · exact Or.inr (List.mem_cons_of_mem _ h1)
    · rw [if_neg hk] at h
      rcases List.mem_cons.mp h with h1 | h1
      · exact Or.inr (List.mem_cons.mpr (Or.inl h1))
      · rcases ih h1 with h2 | h2
        · exact Or.inl h2
        · exact Or.inr (List.mem_cons_of_mem _ h2)

theorem lookupAssoc_updateAssoc (m : List (String × String)) (k v : String) :
    lookupAssoc (updateAssoc m k v) k = some v := by
  induction m with
  | nil => simp [updateAssoc, lookupAssoc]
  | cons p rest ih =>
    obtain ⟨k', v'⟩ := p
    unfold updateAssoc
    by_cases hk : k' = k
    · rw [if_pos hk]
      simp [lookupAssoc]
    · rw [if_neg hk]
      unfold lookupAssoc
      rw [if_neg hk]
      exact ih

theorem updateAssoc_idem (m : List (String × String)) (k v : String) :
    updateAssoc (updateAssoc m k v) k v = updateAssoc m k v := by
  induction m with
  | nil => simp [updateAssoc]
  | cons p rest ih =>
    obtain ⟨k', v'⟩ := p
    by_cases hk : k' = k
    · rw [show updateAssoc ((k', v') :: rest) k v = (k, v) :: rest from by
        simp only [updateAssoc]; rw [if_pos hk]]
      simp [updateAssoc]
    · rw [show updateAssoc ((k', v') :: rest) k v
          = (k', v') :: updateAssoc rest k v from by
        simp only [updateAssoc]; rw [if_neg hk]]
      simp only [updateAssoc]
      rw [if_neg hk, ih]

theorem insertNew_idem (x : String) (l : List String) :
    insertNew x (insertNew x l) = insertNew x l := by
  unfold insertNew
  by_cases h : x ∈ l
  · rw [if_pos h, if_pos h]
  · rw [if_neg h, if_pos (by simp)]

/-! ### Lemmas about the `Lab` model -/

namespace Lab

theorem reachAux_nil (edges : List (String × String)) (target : String)
    (seen : List String) : reachAux edges target [] seen = false := by
  rw [reachAux]

theorem reachAux_self (edges : List (String × String)) (target : String)
    (rest seen : List String) :
    reachAux edges target (target :: rest) seen = true := by
  rw [reachAux]
  simp

/-- Reflexivity of `_reachable`: the start is popped first and compared
with the target before any edge is consulted. -/
theorem Ontology.reachable_self (o : Ontology) (x : String) (rel : RelName) :
    o.reachable x x rel = true := by
  unfold Ontology.reachable
  exact reachAux_self _ _ _ _

theorem nbrs_eq_nil {edges : List (String × String)} {x : String}
    (h : ∀ e ∈ edges, e.1 ≠ x) : nbrs edges x = [] := by
  unfold nbrs
  have hf : edges.filter (fun e => decide (e.1 = x)) = [] := by
    rw [List.filter_eq_nil]
    intro e he
    simpa using h e he
  rw [hf]
  rfl

theorem reachAux_single_false {edges : List (String × String)} {x y : String}
    (hxy : x ≠ y) (h : nbrs edges x = []) :
    reachAux edges y [x] [] = false := by
  rw [reachAux, if_neg hxy, dif_neg (List.not_mem_nil x), h, List.nil_append]
  exact reachAux_nil _ _ _

/-- `Good` holds for the empty store. -/
theorem Good_empty : Good Ontology.empty := by
  refine ⟨?_, ?_, ?_, ?_⟩ <;> intro e he <;> cases he

theorem Good_add_class {o : Ontology} (h : Good o) (c : String) :
    Good (o.add_class c) := by
  obtain ⟨h1, h2, h3, h4⟩ := h
  refine ⟨?_, ?_, ?_, ?_⟩ <;> intro e he
  · exact ⟨subset_insertNew (h1 e he).1, subset_insertNew (h1 e he).2⟩
  · exact ⟨subset_insertNew (h2 e he).1, subset_insertNew (h2 e he).2⟩
  · exact ⟨subset_insertNew (h3 e he).1, subset_insertNew (h3 e he).2⟩
  · exact subset_insertNew (h4 e he)

theorem Good_applyOp {o : Ontology} (h : Good o) (op : Op) :
    Good (applyOp o op) := by
  cases op with
  | add_class c => exact Good_add_class h c
  | add_is_a a b =>
    obtain ⟨h1, h2, h3, h4⟩ := Good_add_class (Good_add_class h a) b
    refine ⟨?_, h2, h3, h4⟩
    intro e he
    rcases mem_insertEdge.mp he with rfl | he'
    · exact ⟨subset_insertNew (mem_insertNew.mpr (Or.inl rfl)),
        mem_insertNew.mpr (Or.inl rfl)⟩
    · exact h1 e he'
  | add_part_of a b =>
    obtain ⟨h1, h2, h3, h4⟩ := Good_add_class (Good_add_class h a) b
    refine ⟨h1, ?_, h3, h4⟩
    intro e he
    rcases mem_insertEdge.mp he with rfl | he'
    · exact ⟨subset_insertNew (mem_insertNew.mpr (Or.inl rfl)),
        mem_insertNew.mpr (Or.inl rfl)⟩
    · exact h2 e he'
  | add_depends_on a b =>
    obtain ⟨h1, h2, h3, h4⟩ := Good_add_class (Good_add_class h a) b
    refine ⟨h1, h2, ?_, h4⟩
    intro e he
    rcases mem_insertEdge.mp he with rfl | he'
    · exact ⟨subset_insertNew (mem_insertNew.mpr (Or.inl rfl)),
        mem_insertNew.mpr (Or.inl rfl)⟩
    · exact h3 e he'
  | add_instance i c =>
    obtain ⟨h1, h2, h3, h4⟩ := Good_add_class h c
    refine ⟨h1, h2, h3, ?_⟩
    intro e he
    rcases mem_updateAssoc he with rfl | he'
    · exact mem_insertNew.mpr (Or.inl rfl)
    · exact h4 e he'

theorem Good_foldl (ops : List Op) :
    ∀ o : Ontology, Good o → Good (ops.foldl applyOp o) := by
  induction ops with
  | nil => exact fun o h => h
  | cons op rest ih => exact fun o h => ih (applyOp o op) (Good_applyOp h op)

/-- Every store built by a construction sequence is well formed. -/
theorem Good_run (ops : List Op) : Good (run ops) :=
  Good_foldl ops Ontology.empty Good_empty

theorem classes_applyOp_sub {z : String} (o : Ontology) (op : Op)
    (h : z ∈ (applyOp o op).classes) : z ∈ o.classes ∨ z ∈ op.classArgs := by
  cases op with
  | add_class c =>
    rcases mem_insertNew.mp h with h1 | h1
    · exact Or.inr (by simp [Op.classArgs, h1])
    · exact Or.inl h1
  | add_is_a a b =>
    rcases mem_insertNew.mp h with h1 | h1
    · exact Or.inr (by simp [Op.classArgs, h1])
    · rcases mem_insertNew.mp h1 with h2 | h2
      · exact Or.inr (by simp [Op.classArgs, h2])
      · exact Or.inl h2
  | add_part_of a b =>
    rcases mem_insertNew.mp h with h1 | h1
    · exact Or.inr (by simp [Op.classArgs, h1])
    · rcases mem_insertNew.mp h1 with h2 | h2
      · exact Or.inr (by simp [Op.classArgs, h2])
      · exact Or.inl h2
  | add_depends_on a b =>
    rcases mem_insertNew.mp h with h1 | h1
    · exact Or.inr (by simp [Op.classArgs, h1])
    · rcases mem_insertNew.mp h1 with h2 | h2
      · exact Or.inr (by simp [Op.classArgs, h2])
      · exact Or.inl h2
  | add_instance i c =>
    rcases mem_insertNew.mp h with h1 | h1
    · exact Or.inr (by simp [Op.classArgs, h1])
    · exact Or.inl h1

theorem instances_applyOp_sub {z : String} (o : Ontology) (op : Op)
    (h : z ∈ (applyOp o op).instances) :
    z ∈ o.instances ∨ z ∈ op.instArgs := by
  cases op with
  | add_instance i c =>
    simp only [applyOp, Ontology.add_instance, Ontology.add_class,
      Op.instArgs, List.mem_cons, List.not_mem_nil, or_false] at h ⊢
    rcases mem_insertNew.mp h with h1 | h1
    · exact Or.inr h1
    · exact Or.inl h1
  | add_class c => exact Or.inl h
  | add_is_a a b => exact Or.inl h
  | add_part_of a b => exact Or.inl h
  | add_depends_on a b => exact Or.inl h

theorem classes_foldl_sub (ops : List Op) :
    ∀ (o : Ontology) (z : String), z ∈ (ops.foldl applyOp o).classes →
      z ∈ o.classes ∨ z ∈ classArgsOf ops := by
  induction ops with
  | nil => exact fun o z h => Or.inl h
  | cons op rest ih =>
    intro o z h
    rcases ih (applyOp o op) z h with h1 | h1
    · rcases classes_applyOp_sub o op h1 with h2 | h2
      · exact Or.inl h2
      · exact Or.inr (by
          simp only [classArgsOf, List.map_cons, List.join_cons,
            List.mem_append]
          exact Or.inl h2)
    · exact Or.inr (by
        simp only [classArgsOf, List.map_cons, List.join_cons,
          List.mem_append]
        exact Or.inr (by simpa [classArgsOf] using h1))

/-! #### Correctness of `any_path` -/

/-- Structural invariant of the predecessor map: every non-start entry
records a stored edge from an already-discovered predecessor (an entry
deeper in the list), and every start entry is the BFS source `a`. -/
def PrevOK (o : Ontology) (a : String) : Prev → Prop
  | [] => True
  | (y, none) :: rest => y = a ∧ PrevOK o a rest
  | (y, some (p, r)) :: rest =>
      (p, y) ∈ o.rel r ∧ p ∈ prevKeys rest ∧ PrevOK o a rest

theorem PrevOK_tail {o : Ontology} {a : String} {e : String × Option (String × RelName)}
    {rest : Prev} (h : PrevOK o a (e :: rest)) : PrevOK o a rest := by
  obtain ⟨k, eo⟩ := e
  cases eo with
  | none => exact h.2
  | some pr =>
    obtain ⟨p, r⟩ := pr
    exact h.2.2

theorem ValidChain_append {o : Ontology} {a p c : String} {r : RelName}
    {path : List (String × RelName × String)}
    (h : ValidChain o a path p) (he : (p, c) ∈ o.rel r) :
    ValidChain o a (path ++ [(p, r, c)]) c := by
  induction path generalizing a with
  | nil =>
    have hpa : p = a := h
    exact ⟨hpa.symm ▸ rfl, hpa ▸ he, rfl⟩
  | cons e rest ih =>
    obtain ⟨s, r', t⟩ := e
    obtain ⟨hsa, hedge, hrest⟩ := h
    exact ⟨hsa, hedge, ih hrest⟩

/-- A valid chain witnesses reachability over the union of relations. -/
theorem ValidChain_reach {o : Ontology} {a endv : String}
    {path : List (String × RelName × String)}
    (h : ValidChain o a path endv) : o.ReachU a endv := by
  induction path generalizing a with
  | nil =>
    have : endv = a := h
    rw [this]
    exact Relation.ReflTransGen.refl
  | cons e rest ih =>
    obtain ⟨s, r, t⟩ := e
    obtain ⟨hsa, hedge, hrest⟩ := h
    have hstep : o.step a t := by
      rw [← hsa]
      cases r with
      | is_a => exact Or.inl hedge
      | part_of => exact Or.inr (Or.inl hedge)
      | depends_on => exact Or.inr (Or.inr hedge)
    exact Relation.ReflTransGen.head hstep (ih hrest)

/-- Path reconstruction from a well-formed predecessor map yields a
valid chain from the source to the looked-up node. -/
theorem walkPath_valid (o : Ontology) (a : String) :
    ∀ prev : Prev, PrevOK o a prev → ∀ cur, cur ∈ prevKeys prev →
      ValidChain o a (walkPath prev cur) cur := by
  intro prev
  induction prev with
  | nil =>
    intro _ cur hcur
    cases hcur
  | cons e rest ih =>
    obtain ⟨k, eo⟩ := e
    intro hOK cur hcur
    unfold walkPath
    by_cases hk : k = cur
    · rw [if_pos hk]
      cases eo with
      | none =>
        obtain ⟨hka, hrest⟩ := hOK
        show cur = a
        rw [← hk, hka]
      | some pr =>
        obtain ⟨p, r⟩ := pr
        obtain ⟨hedge, hpk, hrest⟩ := hOK
        exact ValidChain_append (ih hrest p hpk) (hk ▸ hedge)
    · rw [if_neg hk]
      have hcur' : cur ∈ prevKeys rest := by
        rcases List.mem_cons.mp hcur with h1 | h1
        · exact absurd h1.symm hk
        · exact h1
      exact ih (PrevOK_tail hOK) cur hcur'

/-- Every labelled neighbor of `x` is a stored edge of its relation. -/
theorem labeledNbrs_rel (o : Ontology) (x : String) :
    ∀ p ∈ o.labeledNbrs x, (x, p.2) ∈ o.rel p.1 := by
  rintro ⟨r, y⟩ hp
  simp only [Ontology.labeledNbrs, List.mem_append, List.mem_map] at hp
  rcases hp with (⟨z, hz, he⟩ | ⟨z, hz, he⟩) | ⟨z, hz, he⟩ <;>
    injection he with h1 h2 <;> subst h2 <;> rw [← h1] <;>
    exact (mem_nbrs _ _ _).mp hz

/-- One union-relation hop is exactly membership of a labelled neighbor
block. -/
theorem step_iff_labeled (o : Ontology) (y z : String) :
    o.step y z ↔ ∃ r, (r, z) ∈ o.labeledNbrs y := by
  constructor
  · intro h
    rcases h with h | h | h
    · exact ⟨RelName.is_a, by
        simp only [Ontology.labeledNbrs, List.mem_append, List.mem_map]
        exact Or.inl (Or.inl ⟨z, (mem_nbrs _ _ _).mpr h, rfl⟩)⟩
    · exact ⟨RelName.part_of, by
        simp only [Ontology.labeledNbrs, List.mem_append, List.mem_map]
        exact Or.inl (Or.inr ⟨z, (mem_nbrs _ _ _).mpr h, rfl⟩)⟩
    · exact ⟨RelName.depends_on, by
        simp only [Ontology.labeledNbrs, List.mem_append, List.mem_map]
        exact Or.inr ⟨z, (mem_nbrs _ _ _).mpr h, rfl⟩⟩
  · rintro ⟨r, hr⟩
    have := labeledNbrs_rel o y (r, z) hr
    cases r with
    | is_a => exact Or.inl this
    | part_of => exact Or.inr (Or.inl this)
    | depends_on => exact Or.inr (Or.inr this)

theorem pushNbrs_entry_preserve (x : String) :
    ∀ (L : List (RelName × String)) (prev : Prev) (acc : List String)
      (e : String × Option (String × RelName)), e ∈ prev →
      e ∈ (pushNbrs x L prev acc).1 := by
  intro L
  induction L with
  | nil => exact fun prev acc e he => he
  | cons p rest ih =>
    obtain ⟨r, y⟩ := p
    intro prev acc e he
    unfold pushNbrs
    by_cases hy : y ∈ prevKeys prev
    · rw [if_pos hy]
      exact ih prev acc e he
    · rw [if_neg hy]
      exact ih _ _ e (List.mem_cons_of_mem _ he)

theorem pushNbrs_key_preserve (x : String) (L : List (RelName × String))
    (prev : Prev) (acc : List String) {y : String}
    (h : y ∈ prevKeys prev) : y ∈ prevKeys (pushNbrs x L prev acc).1 := by
  rcases List.mem_map.mp h with ⟨e, he, hey⟩
  exact hey ▸ List.mem_map_of_mem _ (pushNbrs_entry_preserve x L prev acc e he)

theorem pushNbrs_prevOK (o : Ontology) (a x : String) :
    ∀ (L : List (RelName × String)) (prev : Prev) (acc : List String),
      (∀ p ∈ L, (x, p.2) ∈ o.rel p.1) → x ∈ prevKeys prev → PrevOK o a prev →
      PrevOK o a (pushNbrs x L prev acc).1 := by
  intro L
  induction L with
  | nil => exact fun prev acc _ _ h => h
  | cons p rest ih =>
    obtain ⟨r, y⟩ := p
    intro prev acc hL hx hOK
    unfold pushNbrs
    by_cases hy : y ∈ prevKeys prev
    · rw [if_pos hy]
      exact ih prev acc (fun q hq => hL q (List.mem_cons_of_mem _ hq)) hx hOK
    · rw [if_neg hy]
      refine ih _ _ (fun q hq => hL q (List.mem_cons_of_mem _ hq))
        (List.mem_cons_of_mem _ hx) ?_
      exact ⟨hL (r, y) (List.mem_cons_self _ _), hx, hOK⟩

theorem pushNbrs_covers (x : String) :
    ∀ (L : List (RelName × String)) (prev : Prev) (acc : List String),
      ∀ p ∈ L, p.2 ∈ prevKeys (pushNbrs x L prev acc).1 := by
  intro L
  induction L with
  | nil =>
    intro prev acc p hp
    cases hp
  | cons q rest ih =>
    obtain ⟨r, y⟩ := q
    intro prev acc p hp
    unfold pushNbrs
    rcases List.mem_cons.mp hp with rfl | hp'
    · by_cases hy : y ∈ prevKeys prev
      · rw [if_pos hy]
        exact pushNbrs_key_preserve x rest prev acc hy
      · rw [if_neg hy]
        exact pushNbrs_key_preserve x rest _ _ (List.mem_cons_self _ _)
    · by_cases hy : y ∈ prevKeys prev
      · rw [if_pos hy]
        exact ih prev acc p hp'
      · rw [if_neg hy]
        exact ih _ _ p hp'

theorem pushNbrs_acc_mono (x : String) :
    ∀ (L : List (RelName × String)) (prev : Prev) (acc : List String),
      ∀ y ∈ acc, y ∈ (pushNbrs x L prev acc).2 := by
  intro L
  induction L with
  | nil => exact fun prev acc y hy => hy
  | cons q rest ih =>
    obtain ⟨r, z⟩ := q
    intro prev acc y hy
    unfold pushNbrs
    by_cases hz : z ∈ prevKeys prev
    · rw [if_pos hz]
      exact ih prev acc y hy
    · rw [if_neg hz]
      exact ih _ _ y (List.mem_append_left _ hy)

theorem pushNbrs_qadd_sub (x : String) :
    ∀ (L : List (RelName × String)) (prev : Prev) (acc : List String),
      ∀ y ∈ (pushNbrs x L prev acc).2,
        y ∈ acc ∨ y ∈ prevKeys (pushNbrs x L prev acc).1 := by
  intro L
  induction L with
  | nil => exact fun prev acc y hy => Or.inl hy
  | cons q rest ih =>
    obtain ⟨r, z⟩ := q
    intro prev acc y hy
    unfold pushNbrs at hy ⊢
    by_cases hz : z ∈ prevKeys prev
    · rw [if_pos hz] at hy ⊢
      exact ih prev acc y hy
    · rw [if_neg hz] at hy ⊢
      rcases ih _ _ y hy with h1 | h1
      · rcases List.mem_append.mp h1 with h2 | h2
        · exact Or.inl h2
        · have hz2 : y = z := by simpa using h2
          refine Or.inr (pushNbrs_key_preserve x rest _ _ ?_)
          rw [hz2]
          exact List.mem_cons_self _ _
      · exact Or.inr h1

theorem pushNbrs_newkey_sub (x : String) :
    ∀ (L : List (RelName × String)) (prev : Prev) (acc : List String),
      ∀ y, y ∈ prevKeys (pushNbrs x L prev acc).1 →
        y ∈ prevKeys prev ∨ y ∈ (pushNbrs x L prev acc).2 := by
  intro L
  induction L with
  | nil => exact fun prev acc y hy => Or.inl hy
  | cons q rest ih =>
    obtain ⟨r, z⟩ := q
    intro prev acc y hy
    unfold pushNbrs at hy ⊢
    by_cases hz : z ∈ prevKeys prev
    · rw [if_pos hz] at hy ⊢
      exact ih prev acc y hy
    · rw [if_neg hz] at hy ⊢
      rcases ih _ _ y hy with h1 | h1
      · rcases List.mem_cons.mp h1 with h2 | h2
        · refine Or.inr (pushNbrs_acc_mono x rest _ _ y ?_)
          exact List.mem_append_right _ (by simpa using h2)
        · exact Or.inl h2
      · exact Or.inr h1

/-- Master invariant lemma for the `any_path` BFS loop: from a
well-formed state, a `some` result is a valid chain from `a` to `b` and
a `none` result refutes reachability. -/
theorem anyPathAux_spec (o : Ontology) (a b : String) :
    ∀ (queue : List String) (prev : Prev),
      PrevOK o a prev →
      a ∈ prevKeys prev →
      (∀ y ∈ queue, y ∈ prevKeys prev) →
      (b ∈ prevKeys prev → b ∈ queue) →
      (∀ y ∈ prevKeys prev, y ∉ queue → ∀ z, o.step y z →
        z ∈ prevKeys prev) →
      (∀ path, anyPathAux o b queue prev = some path →
        ValidChain o a path b) ∧
      (anyPathAux o b queue prev = none → ¬ o.ReachU a b) := by
  intro queue prev
  induction queue, prev using anyPathAux.induct o b with
  | case1 prev =>
    intro hOK ha hq hb hcl
    have hnone : anyPathAux o b [] prev = none := by rw [anyPathAux]
    constructor
    · intro path hpath
      rw [hnone] at hpath
      cases hpath
    · intro _ hreach
      have hclosed : ∀ y, o.ReachU a y → y ∈ prevKeys prev := by
        intro y hy
        induction hy with
        | refl => exact ha
        | tail hsteps hstep ih2 =>
          exact hcl _ ih2 (List.not_mem_nil _) _ hstep
      exact (List.not_mem_nil b) (hb (hclosed b hreach))
  | case2 prev rest =>
    intro hOK ha hq hb hcl
    have hsome : anyPathAux o b (b :: rest) prev
        = some (walkPath prev b) := by
      rw [anyPathAux]
      rw [if_pos rfl]
    constructor
    · intro path hpath
      rw [hsome] at hpath
      injection hpath with hp
      rw [← hp]
      exact walkPath_valid o a prev hOK b (hq b (List.mem_cons_self _ _))
    · intro hnone
      rw [hsome] at hnone
      cases hnone
  | case3 prev x rest hxb ih =>
    intro hOK ha hq hb hcl
    have heq : anyPathAux o b (x :: rest) prev
        = anyPathAux o b
            (rest ++ (pushNbrs x (o.labeledNbrs x) prev []).2)
            (pushNbrs x (o.labeledNbrs x) prev []).1 := by
      rw [anyPathAux]
      rw [if_neg hxb]
    have hx : x ∈ prevKeys prev := hq x (List.mem_cons_self _ _)
    have hOK2 : PrevOK o a (pushNbrs x (o.labeledNbrs x) prev []).1 :=
      pushNbrs_prevOK o a x _ prev [] (labeledNbrs_rel o x) hx hOK
    have ha2 : a ∈ prevKeys (pushNbrs x (o.labeledNbrs x) prev []).1 :=
      pushNbrs_key_preserve x _ prev [] ha
    have hq2 : ∀ y ∈ rest ++ (pushNbrs x (o.labeledNbrs x) prev []).2,
        y ∈ prevKeys (pushNbrs x (o.labeledNbrs x) prev []).1 := by
      intro y hy
      rcases List.mem_append.mp hy with h1 | h1
      · exact pushNbrs_key_preserve x _ prev []
          (hq y (List.mem_cons_of_mem _ h1))
      · rcases pushNbrs_qadd_sub x _ prev [] y h1 with h2 | h2
        · cases h2
        · exact h2
    have hb2 : b ∈ prevKeys (pushNbrs x (o.labeledNbrs x) prev []).1 →
        b ∈ rest ++ (pushNbrs x (o.labeledNbrs x) prev []).2 := by
      intro hbk
      rcases pushNbrs_newkey_sub x _ prev [] b hbk with h1 | h1
      · rcases List.mem_cons.mp (hb h1) with h2 | h2
        · exact absurd h2.symm hxb
        · exact List.mem_append_left _ h2
      · exact List.mem_append_right _ h1
    have hcl2 : ∀ y ∈ prevKeys (pushNbrs x (o.labeledNbrs x) prev []).1,
        y ∉ rest ++ (pushNbrs x (o.labeledNbrs x) prev []).2 →
        ∀ z, o.step y z →
          z ∈ prevKeys (pushNbrs x (o.labeledNbrs x) prev []).1 := by
      intro y hyk hynq z hstep
      rcases pushNbrs_newkey_sub x _ prev [] y hyk with hyold | hyq
      · by_cases hyx : y = x
        · subst hyx
          rcases (step_iff_labeled o y z).mp hstep with ⟨r, hr⟩
          exact pushNbrs_covers y _ prev [] (r, z) hr
        · have hynotold : y ∉ x :: rest := by
            intro hc
            rcases List.mem_cons.mp hc with h2 | h2
            · exact hyx h2
            · exact hynq (List.mem_append_left _ h2)
          exact pushNbrs_key_preserve x _ prev []
            (hcl y hyold hynotold z hstep)
      · exact absurd (List.mem_append_right _ hyq) hynq
    have hconcl := ih hOK2 ha2 hq2 hb2 hcl2
    constructor
    · intro path hpath
      rw [heq] at hpath
      exact hconcl.1 path hpath
    · intro hnone
      rw [heq] at hnone
      exact hconcl.2 hnone

/-- Specification of `any_path`: a returned chain is valid from `a` to
`b`, and the absent result is returned exactly when `b` is unreachable
from `a` over the union of all relations, directed as stored. -/
theorem any_path_spec (o : Ontology) (a b : String) :
    (∀ path, o.any_path a b = some path → ValidChain o a path b) ∧
    (o.any_path a b = none ↔ ¬ o.ReachU a b) := by
  have h := anyPathAux_spec o a b [a] [(a, none)]
    ⟨rfl, trivial⟩
    (List.mem_cons_self _ _)
    (fun y hy => hy)
    (fun hbk => hbk)
    (by
      intro y hyk hynq z hstep
      exact absurd hyk hynq)
  constructor
  · exact h.1
  · constructor
    · exact h.2
    · intro hnr
      cases hap : o.any_path a b with
      | none => rfl
      | some path =>
        exact absurd (ValidChain_reach (h.1 path hap)) hnr

theorem instances_foldl_sub (ops : List Op) :
    ∀ (o : Ontology) (z : String), z ∈ (ops.foldl applyOp o).instances →
      z ∈ o.instances ∨ z ∈ instArgsOf ops := by
  induction ops with
  | nil => exact fun o z h => Or.inl h
  | cons op rest ih =>
    intro o z h
    rcases ih (applyOp o op) z h with h1 | h1
    · rcases instances_applyOp_sub o op h1 with h2 | h2
      · exact Or.inl h2
      · exact Or.inr (by
          simp only [instArgsOf, List.map_cons, List.join_cons,
            List.mem_append]
          exact Or.inl h2)
    · exact Or.inr (by
        simp only [instArgsOf, List.map_cons, List.join_cons,
          List.mem_append]
        exact Or.inr (by simpa [instArgsOf] using h1))

end Lab

namespace Lab

/-- An identifier with no outgoing stored edges never reaches a distinct
target. -/
theorem Ontology.reachable_absent {o : Ontology} (hG : Good o)
    {x y : String} (hx : x ∉ o.classes) (hxy : x ≠ y) (rel : RelName) :
    o.reachable x y rel = false := by
  unfold Ontology.reachable
  apply reachAux_single_false hxy
  apply nbrs_eq_nil
  intro e he hex
  obtain ⟨h1, h2, h3, h4⟩ := hG
  have hcl : e.1 ∈ o.classes := by
    cases rel with
    | is_a => exact (h1 e he).1
    | part_of => exact (h2 e he).1
    | depends_on => exact (h3 e he).1
  rw [hex] at hcl
  exact hx hcl

/-- In a well-formed store, `part_of` on an identifier absent from both
the class and instance sets returns false for any distinct target. -/
theorem Ontology.part_of_absent {o : Ontology} (hG : Good o) {x y : String}
    (hx_cl : x ∉ o.classes) (hx_in : x ∉ o.instances) (hxy : x ≠ y) :
    o.part_of x y = false := by
  unfold Ontology.part_of
  rw [Ontology.reachable_absent hG hx_cl hxy]
  simp only [Bool.false_eq_true, if_false]
  have hlx : o.liftInstance x = x := by
    unfold Ontology.liftInstance
    rw [if_neg hx_in]
  have hly : x ≠ o.liftInstance y := by
    unfold Ontology.liftInstance
    by_cases hy : y ∈ o.instances
    · rw [if_pos hy]
      cases hl : lookupAssoc o.instance_of y with
      | none =>
        simpa using hxy
      | some v =>
        have hv : v ∈ o.classes := hG.2.2.2 (y, v) (lookupAssoc_mem hl)
        simp only [Option.getD_some]
        intro hc
        rw [← hc] at hv
        exact hx_cl hv
    · rw [if_neg hy]
      exact hxy
  rw [hlx]
  exact Ontology.reachable_absent hG hx_cl hly RelName.part_of

/-- The lifted retry of `part_of`: if a direct or lifted reachability
check succeeds, `part_of` answers true. -/
theorem Ontology.part_of_of_lifted {o : Ontology} {i C W : String}
    (hi : i ∈ o.instances) (hC : lookupAssoc o.instance_of i = some C)
    (h : o.reachable i W RelName.part_of = true ∨
      o.reachable C (o.liftInstance W) RelName.part_of = true) :
    o.part_of i W = true := by
  unfold Ontology.part_of
  cases hr : o.reachable i W RelName.part_of with
  | true => simp
  | false =>
    rcases h with h | h
    · rw [hr] at h
      cases h
    · simp only [Bool.false_eq_true, if_false]
      have hlift : o.liftInstance i = C := by
        simp [Ontology.liftInstance, hi, hC]
      rw [hlift]
      exact h

/-! #### Fixture stores for the concrete claims -/

/-- C4 fixture: `W` is both a `part_of` target (hence a class) and a
registered instance of `D`. -/
def storeC4 : Ontology :=
  ((Ontology.empty.add_part_of "C" "W").add_instance "i" "C").add_instance
    "W" "D"

/-- C10 fixture: the class `C` of instance `i` is itself registered as
an instance of `D`. -/
def storeC10 : Ontology :=
  (Ontology.empty.add_instance "i" "C").add_instance "C" "D"

/-- C5 witness fixture: a one-edge store. -/
def storeC5 : Ontology := Ontology.empty.add_is_a "a" "b"

/-- C6 fixture: exactly 19 registered classes. -/
def names19 : List String :=
  ["c1", "c2", "c3", "c4", "c5", "c6", "c7", "c8", "c9", "c10", "c11",
   "c12", "c13", "c14", "c15", "c16", "c17", "c18", "c19"]

def store19 : Ontology := names19.foldl Ontology.add_class Ontology.empty

def bNames : List String :=
  ["b1", "b2", "b3", "b4", "b5", "b6", "b7", "b8", "b9", "b10", "b11",
   "b12", "b13", "b14", "b15", "b16"]

/-- C6 fixture core: the root plus an `is_a` chain of depth exactly 4
(`a3 → a2 → a1 → Computer Science`). -/
def chainStore : Ontology :=
  (((Ontology.empty.add_class "Computer Science").add_is_a
    "a1" "Computer Science").add_is_a "a2" "a1").add_is_a "a3" "a2"

def baseStore : Ontology := bNames.foldl Ontology.add_class chainStore

def addTwo (o : Ontology) (c : String) : Ontology :=
  (o.add_instance (c ++ "_i1") c).add_instance (c ++ "_i2") c

/-- C6 fixture: 20 classes, chain depth exactly 4, two instances per
leaf class. -/
def store20 : Ontology := ("a3" :: bNames).foldl addTwo baseStore

/-- C6 fixture: like `store20` but the leaf `a3` has exactly one
instance. -/
def storeLeaf : Ontology :=
  (bNames.foldl addTwo baseStore).add_instance "a3_only" "a3"

end Lab

/-! ### Lemmas about the `Src` model: `connected` symmetry -/

namespace Src

/-- The undirected adjacency underlying `connected`: one neighbor-block
membership hop. -/
def connStep (x y : String) : Prop := y ∈ neighborsList x

/-- Reachability along neighbor blocks (what the `connected` BFS
explores). -/
def connReach (x y : String) : Prop := Relation.ReflTransGen connStep x y

/-- The neighbor-block relation is symmetric: every block member arises
from a stored pair, and the block of the other member contains the
reverse direction. -/
theorem neighborsList_symm {x y : String} (h : y ∈ neighborsList x) :
    x ∈ neighborsList y := by
  simp only [neighborsList, List.mem_append] at h ⊢
  rcases h with ((((((h | h) | h) | h) | h) | h) | h) | h
  · -- forward is_a, answered by the reverse is_a block of y
    refine Or.inl (Or.inl (Or.inl (Or.inr ?_)))
    exact List.mem_map.mpr ⟨(x, y),
      List.mem_filter.mpr ⟨(mem_nbrs _ _ _).mp h, by simp⟩, rfl⟩
  · refine Or.inl (Or.inl (Or.inr ?_))
    exact List.mem_map.mpr ⟨(x, y),
      List.mem_filter.mpr ⟨(mem_nbrs _ _ _).mp h, by simp⟩, rfl⟩
  · refine Or.inl (Or.inr ?_)
    exact List.mem_map.mpr ⟨(x, y),
      List.mem_filter.mpr ⟨(mem_nbrs _ _ _).mp h, by simp⟩, rfl⟩
  · -- forward instance_of, answered by the pair block of y
    refine Or.inr ?_
    refine List.mem_join.mpr ⟨[x, y], ?_, List.mem_cons_self _ _⟩
    exact List.mem_map.mpr ⟨(x, y),
      List.mem_filter.mpr ⟨(mem_nbrs _ _ _).mp h, by simp⟩, rfl⟩
  · -- reverse is_a, answered by the forward is_a block of y
    rcases List.mem_map.mp h with ⟨e, hef, he1⟩
    obtain ⟨e1, e2⟩ := e
    obtain ⟨hel, hcond⟩ := List.mem_filter.mp hef
    simp only [decide_eq_true_eq] at hcond
    simp only at he1
    subst he1
    subst hcond
    refine Or.inl (Or.inl (Or.inl (Or.inl (Or.inl (Or.inl (Or.inl ?_))))))
    exact (mem_nbrs _ _ _).mpr hel
  · rcases List.mem_map.mp h with ⟨e, hef, he1⟩
    obtain ⟨e1, e2⟩ := e
    obtain ⟨hel, hcond⟩ := List.mem_filter.mp hef
    simp only [decide_eq_true_eq] at hcond
    simp only at he1
    subst he1
    subst hcond
    refine Or.inl (Or.inl (Or.inl (Or.inl (Or.inl (Or.inl (Or.inr ?_))))))
    exact (mem_nbrs _ _ _).mpr hel
  · rcases List.mem_map.mp h with ⟨e, hef, he1⟩
    obtain ⟨e1, e2⟩ := e
    obtain ⟨hel, hcond⟩ := List.mem_filter.mp hef
    simp only [decide_eq_true_eq] at hcond
    simp only at he1
    subst he1
    subst hcond
    refine Or.inl (Or.inl (Or.inl (Or.inl (Or.inl (Or.inr ?_)))))
    exact (mem_nbrs _ _ _).mpr hel
  · -- pair block of x, answered by the pair block of y via the same pair
    rcases List.mem_join.mp h with ⟨l, hl, hyl⟩
    rcases List.mem_map.mp hl with ⟨e, hef, hel⟩
    obtain ⟨hein, hcond⟩ := List.mem_filter.mp hef
    simp only [decide_eq_true_eq] at hcond
    rw [← hel] at hyl
    refine Or.inr ?_
    refine List.mem_join.mpr ⟨[e.1, e.2], ?_, ?_⟩
    · refine List.mem_map.mpr ⟨e, List.mem_filter.mpr ⟨hein, ?_⟩, rfl⟩
      rcases List.mem_cons.mp hyl with h1 | h1
      · simp [h1]
      · have h2 : y = e.2 := by simpa using h1
        simp [h2]
    · rcases hcond with h1 | h1
      · rw [← h1]
        simp
      · rw [← h1]
        simp

theorem connReach_symm {x y : String} (h : connReach x y) : connReach y x :=
  Relation.ReflTransGen.symmetric
    (fun _ _ hab => neighborsList_symm hab) h

/-- Everything `resolve` can return. -/
def resolveRange : List String :=
  ALIASES.map Prod.snd ++ CLASSES ++ INSTANCE_OF.map Prod.fst
    ++ INSTANCE_OF.map Prod.snd

theorem resolve_fixed_range : resolveRange.all isFixed = true := by decide

theorem resolve_ok_mem_range {a a2 : String}
    (h : resolve a = Except.ok a2) : a2 ∈ resolveRange := by
  simp only [resolve] at h
  simp only [resolveRange, List.mem_append]
  cases hl : lookupAssoc ALIASES (pyStrip a) with
  | some v =>
    rw [hl] at h
    injection h with h2
    subst h2
    exact Or.inl (Or.inl (Or.inl
      (List.mem_map_of_mem Prod.snd (lookupAssoc_mem hl))))
  | none =>
    rw [hl] at h
    by_cases hc : pyStrip a ∈ CLASSES
    · rw [if_pos hc] at h
      injection h with h2
      subst h2
      exact Or.inl (Or.inl (Or.inr hc))
    · rw [if_neg hc] at h
      by_cases hi : pyStrip a ∈ INSTANCE_OF.map Prod.fst
          ++ INSTANCE_OF.map Prod.snd
      · rw [if_pos hi] at h
        injection h with h2
        subst h2
        rcases List.mem_append.mp hi with h3 | h3
        · exact Or.inl (Or.inr h3)
        · exact Or.inr h3
      · rw [if_neg hi] at h
        cases h

/-- `resolve` is idempotent: its outputs resolve to themselves. -/
theorem resolve_idem {a a2 : String} (h : resolve a = Except.ok a2) :
    resolve a2 = Except.ok a2 := by
  have hm := resolve_ok_mem_range h
  have hf := List.all_eq_true.mp resolve_fixed_range a2 hm
  unfold isFixed at hf
  cases hr : resolve a2 <;> rw [hr] at hf
  · cases hf
  · simp only [decide_eq_true_eq] at hf
    rw [hf]

/-- Master invariant lemma for the `connected` BFS: starting from a
state whose queue nodes are canonical and reachable from the source `s`,
the loop never raises, returns true only if `b` is reachable from `s`,
and returns false only if `b` is not reachable from `s`. -/
theorem connAux_spec (s b : String) :
    ∀ (queue visited : List String),
      (∀ x ∈ queue, resolve x = Except.ok x) →
      (∀ x ∈ queue, connReach s x) →
      (∀ v ∈ visited, connReach s v) →
      (∀ v ∈ visited, b ∉ neighborsList v) →
      (∀ v ∈ visited, ∀ z ∈ neighborsList v, z ∈ visited ∨ z ∈ queue) →
      (s ∈ queue ∨ s ∈ visited) →
      (∃ r : Bool, connAux b queue visited = Except.ok r) ∧
      (connAux b queue visited = Except.ok true → connReach s b) ∧
      (connAux b queue visited = Except.ok false → b ≠ s →
        ¬ connReach s b) := by
  intro queue visited
  induction queue, visited using connAux.induct b with
  | case1 visited =>
    intro hI1 hI2 hI3 hI4 hI5 hI6
    have heq : connAux b [] visited = Except.ok false := by rw [connAux]
    refine ⟨⟨false, heq⟩, ?_, ?_⟩
    · intro htrue
      rw [heq] at htrue
      injection htrue with h2
      cases h2
    · intro _ hbs hreach
      have hs : s ∈ visited := by
        rcases hI6 with h | h
        · cases h
        · exact h
      have hvis : ∀ y, connReach s y → y ∈ visited := by
        intro y hy
        induction hy with
        | refl => exact hs
        | tail hsteps hstep ih2 =>
          rcases hI5 _ ih2 _ hstep with h | h
          · exact h
          · cases h
      rcases Relation.ReflTransGen.cases_tail hreach with h | ⟨c, hc, hstep⟩
      · exact hbs h
      · exact hI4 c (hvis c hc) hstep
  | case2 visited x rest hx ih =>
    intro hI1 hI2 hI3 hI4 hI5 hI6
    have heq : connAux b (x :: rest) visited = connAux b rest visited := by
      rw [connAux]
      rw [dif_pos hx]
    have hI5' : ∀ v ∈ visited, ∀ z ∈ neighborsList v,
        z ∈ visited ∨ z ∈ rest := by
      intro v hv z hz
      rcases hI5 v hv z hz with h | h
      · exact Or.inl h
      · rcases List.mem_cons.mp h with h2 | h2
        · exact Or.inl (h2 ▸ hx)
        · exact Or.inr h2
    have hI6' : s ∈ rest ∨ s ∈ visited := by
      rcases hI6 with h | h
      · rcases List.mem_cons.mp h with h2 | h2
        · exact Or.inr (h2 ▸ hx)
        · exact Or.inl h2
      · exact Or.inr h
    have hres := ih (fun z hz => hI1 z (List.mem_cons_of_mem _ hz))
      (fun z hz => hI2 z (List.mem_cons_of_mem _ hz)) hI3 hI4 hI5' hI6'
    refine ⟨?_, ?_, ?_⟩
    · obtain ⟨r, hr⟩ := hres.1
      exact ⟨r, by rw [heq]; exact hr⟩
    · intro htrue
      rw [heq] at htrue
      exact hres.2.1 htrue
    · intro hfalse
      rw [heq] at hfalse
      exact hres.2.2 hfalse
  | case3 visited x rest hx e hne =>
    intro hI1 hI2 hI3 hI4 hI5 hI6
    have hrx : resolve x = Except.ok x := hI1 x (List.mem_cons_self _ _)
    have hok : neighbors x = Except.ok (neighborsList x) := by
      unfold neighbors
      rw [hrx]
    rw [hok] at hne
    cases hne
  | case4 visited x rest hx ns hns hbns =>
    intro hI1 hI2 hI3 hI4 hI5 hI6
    have hrx : resolve x = Except.ok x := hI1 x (List.mem_cons_self _ _)
    have hok : neighbors x = Except.ok (neighborsList x) := by
      unfold neighbors
      rw [hrx]
    have hnsx : ns = neighborsList x := by
      rw [hok] at hns
      injection hns with h2
      exact h2.symm
    have heq : connAux b (x :: rest) visited = Except.ok true := by
      rw [connAux]
      rw [dif_neg hx]
      split
      · next e2 heq2 => rw [hns] at heq2; cases heq2
      · next ns2 heq2 =>
          rw [hns] at heq2
          injection heq2 with h2
          subst h2
          rw [if_pos hbns]
    refine ⟨⟨true, heq⟩, ?_, ?_⟩
    · intro _
      have hstep : b ∈ neighborsList x := hnsx ▸ hbns
      exact Relation.ReflTransGen.tail (hI2 x (List.mem_cons_self _ _)) hstep
    · intro hfalse
      rw [heq] at hfalse
      injection hfalse with h2
      cases h2
  | case5 visited x rest hx ns hns hbns ih =>
    intro hI1 hI2 hI3 hI4 hI5 hI6
    have hrx : resolve x = Except.ok x := hI1 x (List.mem_cons_self _ _)
    have hok : neighbors x = Except.ok (neighborsList x) := by
      unfold neighbors
      rw [hrx]
    have hnsx : ns = neighborsList x := by
      rw [hok] at hns
      injection hns with h2
      exact h2.symm
    have heq : connAux b (x :: rest) visited
        = connAux b (rest ++ ns.filter (fun y => y ∉ x :: visited))
            (x :: visited) := by
      rw [connAux]
      rw [dif_neg hx]
      split
      · next e2 heq2 => rw [hns] at heq2; cases heq2
      · next ns2 heq2 =>
          rw [hns] at heq2
          injection heq2 with h2
          subst h2
          rw [if_neg hbns]
    have hI1' : ∀ z ∈ rest ++ ns.filter (fun y => y ∉ x :: visited),
        resolve z = Except.ok z := by
      intro z hz
      rcases List.mem_append.mp hz with h1 | h1
      · exact hI1 z (List.mem_cons_of_mem _ h1)
      · have hzn : z ∈ neighborsList x :=
          hnsx ▸ List.mem_of_mem_filter h1
        exact resolve_of_mem_allNodes (neighborsList_sub x z hzn)
    have hI2' : ∀ z ∈ rest ++ ns.filter (fun y => y ∉ x :: visited),
        connReach s z := by
      intro z hz
      rcases List.mem_append.mp hz with h1 | h1
      · exact hI2 z (List.mem_cons_of_mem _ h1)
      · have hzn : z ∈ neighborsList x :=
          hnsx ▸ List.mem_of_mem_filter h1
        exact Relation.ReflTransGen.tail (hI2 x (List.mem_cons_self _ _))
          hzn
    have hI3' : ∀ v ∈ x :: visited, connReach s v := by
      intro v hv
      rcases List.mem_cons.mp hv with h1 | h1
      · exact h1 ▸ hI2 x (List.mem_cons_self _ _)
      · exact hI3 v h1
    have hI4' : ∀ v ∈ x :: visited, b ∉ neighborsList v := by
      intro v hv
      rcases List.mem_cons.mp hv with h1 | h1
      · rw [h1, ← hnsx]
        exact hbns
      · exact hI4 v h1
    have hI5' : ∀ v ∈ x :: visited, ∀ z ∈ neighborsList v,
        z ∈ x :: visited ∨
        z ∈ rest ++ ns.filter (fun y => y ∉ x :: visited) := by
      intro v hv z hz
      rcases List.mem_cons.mp hv with h1 | h1
      · subst h1
        by_cases hzv : z ∈ v :: visited
        · exact Or.inl hzv
        · refine Or.inr (List.mem_append_right _ ?_)
          refine List.mem_filter.mpr ⟨hnsx ▸ hz, ?_⟩
          simpa using hzv
      · rcases hI5 v h1 z hz with h2 | h2
        · exact Or.inl (List.mem_cons_of_mem _ h2)
        · rcases List.mem_cons.mp h2 with h3 | h3
          · exact Or.inl (h3 ▸ List.mem_cons_self _ _)
          · exact Or.inr (List.mem_append_left _ h3)
    have hI6' : s ∈ rest ++ ns.filter (fun y => y ∉ x :: visited) ∨
        s ∈ x :: visited := by
      rcases hI6 with h | h
      · rcases List.mem_cons.mp h with h2 | h2
        · exact Or.inr (h2 ▸ List.mem_cons_self _ _)
        · exact Or.inl (List.mem_append_left _ h2)
      · exact Or.inr (List.mem_cons_of_mem _ h)
    have hres := ih hI1' hI2' hI3' hI4' hI5' hI6'
    refine ⟨?_, ?_, ?_⟩
    · obtain ⟨r, hr⟩ := hres.1
      exact ⟨r, by rw [heq]; exact hr⟩
    · intro htrue
      rw [heq] at htrue
      exact hres.2.1 htrue
    · intro hfalse
      rw [heq] at hfalse
      exact hres.2.2 hfalse

/-- Symmetry of `connected` on identifiers the store accepts. -/
theorem connected_symm_of_resolve {a b a2 b2 : String}
    (hra : resolve a = Except.ok a2) (hrb : resolve b = Except.ok b2) :
    connected a b = connected b a := by
  have hspec : ∀ s t : String, resolve s = Except.ok s →
      (∃ r : Bool, connAux t [s] [] = Except.ok r) ∧
      (connAux t [s] [] = Except.ok true → connReach s t) ∧
      (connAux t [s] [] = Except.ok false → t ≠ s → ¬ connReach s t) := by
    intro s t hs
    refine connAux_spec s t [s] []
      (fun z hz => ?_) (fun z hz => ?_)
      (fun v hv => absurd hv (List.not_mem_nil v))
      (fun v hv => absurd hv (List.not_mem_nil v))
      (fun v hv => absurd hv (List.not_mem_nil v))
      (Or.inl (List.mem_cons_self _ _))
    · rcases List.mem_cons.mp hz with h | h
      · rw [h]
        exact hs
      · cases h
    · rcases List.mem_cons.mp hz with h | h
      · rw [h]
        exact Relation.ReflTransGen.refl
      · cases h
  have hca : connected a b
      = if a2 = b2 then Except.ok true else connAux b2 [a2] [] := by
    unfold connected
    rw [hra, hrb]
  have hcb : connected b a
      = if b2 = a2 then Except.ok true else connAux a2 [b2] [] := by
    unfold connected
    rw [hrb, hra]
  rw [hca, hcb]
  by_cases he : a2 = b2
  · rw [if_pos he, if_pos he.symm]
  · rw [if_neg he, if_neg (Ne.symm he)]
    have ha2 : resolve a2 = Except.ok a2 := resolve_idem hra
    have hb2 : resolve b2 = Except.ok b2 := resolve_idem hrb
    obtain ⟨hex1, htrue1, hfalse1⟩ := hspec a2 b2 ha2
    obtain ⟨hex2, htrue2, hfalse2⟩ := hspec b2 a2 hb2
    obtain ⟨r1, hr1⟩ := hex1
    obtain ⟨r2, hr2⟩ := hex2
    rw [hr1, hr2]
    cases r1 <;> cases r2
    · rfl
    · exact absurd (connReach_symm (htrue2 hr2))
        (hfalse1 hr1 (fun hc => he hc.symm))
    · exact absurd (connReach_symm (htrue1 hr1))
        (hfalse2 hr2 (fun hc => he hc))
    · rfl

end Src



/-! ### Claims -/

/-- C1: the claim states that for every pair of registered identifiers
`has_part_transitive(whole, part)` terminates and returns a defined
boolean without raising from its traversal.  The code violates this:
whenever the BFS reaches a node with a non-empty direct-part set without
an accept firing, it executes `queue.update(child_wholes)` on a
`collections.deque`, which has no `update` method (the set method was
used on the deque; `queue.extend` appears two lines earlier), so the
call raises `AttributeError`.  On the registered pair
`("mammal", "eye")` the first node already has direct parts `tail` and
`fur`, neither accept fires, and the call raises. -/
theorem C1_has_part_transitive_raises :
    Src.has_part_transitive "mammal" "eye"
      = Except.error "AttributeError: deque object has no attribute update" := by
  simp [Src.has_part_transitive, Src.resolve, Src.pyStrip, Src.hptAux,
    Src.isaAux, Src.anySuper, Src.is_a_transitive, Src.directParts,
    Src.subclassesOf, nbrs, Src.IS_A, Src.PART_OF, Src.ALIASES,
    Src.CLASSES, Src.INSTANCE_OF, lookupAssoc]

/-- C2 counterexample: reassigning instance `i` from class `A` to a
different class `B` does not fail — `add_instance` has no duplicate
check and the assignment is silently overwritten (last-writer-wins),
contradicting the claimed `DuplicateInstanceError`. -/
theorem C2_counterexample :
    ((Lab.Ontology.empty.add_instance "i" "A").add_instance "i" "B").class_of
      "i" = some "B" := by
  decide

/-- C2 amended: a later `add_instance` call assigning the same instance
id to a different class silently overwrites the earlier assignment
(last-writer-wins) and raises nothing; re-adding with the same class is
a no-op that leaves the store unchanged. -/
theorem C2_amended : ∀ (o : Lab.Ontology) (i c c2 : String),
    ((o.add_instance i c).add_instance i c2).class_of i = some c2
      ∧ (o.add_instance i c).add_instance i c = o.add_instance i c := by
  intro o i c c2
  constructor
  · simp [Lab.Ontology.class_of, Lab.Ontology.add_instance,
      Lab.Ontology.add_class, lookupAssoc_updateAssoc]
  · obtain ⟨cl, ins, io, e1, e2, e3⟩ := o
    simp [Lab.Ontology.add_instance, Lab.Ontology.add_class,
      insertNew_idem, updateAssoc_idem]

/-- C3 counterexample: in `src/ontology.py` the queries resolve their
operands first, so a syntactically valid identifier absent from the
store makes `connected` and `is_a_transitive` raise `KeyError` ("Unknown
term") instead of returning false. -/
theorem C3_counterexample :
    Src.connected "zzz" "dog" = Except.error "Unknown term: zzz"
      ∧ Src.is_a_transitive "zzz" "dog" = Except.error "Unknown term: zzz" :=
  ⟨rfl, rfl⟩

/-- C3 amended: for the `lab_ontology.py` store the claim holds — on any
store built by the construction API, an identifier registered neither as
a class nor as an instance has no neighbors, and `is_a`, `part_of` and
`depends_on` to any distinct target return false without raising; the
`src/ontology.py` queries instead raise `KeyError` from `resolve` before
the BFS machinery runs (see the counterexample). -/
theorem C3_amended : ∀ (ops : List Lab.Op) (x y : String),
    x ∉ (Lab.run ops).classes → x ∉ (Lab.run ops).instances → x ≠ y →
    (Lab.run ops).is_a x y = false ∧ (Lab.run ops).part_of x y = false
      ∧ (Lab.run ops).depends_on x y = false := by
  intro ops x y hxc hxi hxy
  have hG := Lab.Good_run ops
  refine ⟨?_, Lab.Ontology.part_of_absent hG hxc hxi hxy, ?_⟩
  · exact Lab.Ontology.reachable_absent hG hxc hxy Lab.RelName.is_a
  · exact Lab.Ontology.reachable_absent hG hxc hxy Lab.RelName.depends_on

theorem C3_witness :
    (Lab.run [Lab.Op.add_is_a "a" "b"]).is_a "zzz" "a" = false
      ∧ (Lab.run [Lab.Op.add_is_a "a" "b"]).part_of "zzz" "a" = false
      ∧ (Lab.run [Lab.Op.add_is_a "a" "b"]).depends_on "zzz" "a" = false :=
  C3_amended [Lab.Op.add_is_a "a" "b"] "zzz" "a" (by decide) (by decide)
    (by decide)

/-- C4 counterexample: instance `i` is assigned to class `C` and `C`
reaches `W` by a direct `part_of` edge, yet `part_of(i, W)` returns
false, because `W` is itself a registered instance and the lifting step
replaces it by its class `D`, which `C` does not reach. -/
theorem C4_counterexample :
    ("i" ∈ Lab.storeC4.instances
        ∧ lookupAssoc Lab.storeC4.instance_of "i" = some "C"
        ∧ Lab.storeC4.reachable "C" "W" Lab.RelName.part_of = true)
      ∧ Lab.storeC4.part_of "i" "W" = false := by
  refine ⟨⟨by decide, by decide, ?_⟩, ?_⟩
  · simp [Lab.Ontology.reachable, Lab.storeC4, Lab.Ontology.empty,
      Lab.Ontology.add_part_of, Lab.Ontology.add_instance,
      Lab.Ontology.add_class, insertNew, insertEdge, updateAssoc,
      Lab.Ontology.rel, Lab.reachAux, nbrs]
  · simp [Lab.Ontology.part_of, Lab.Ontology.reachable, Lab.storeC4,
      Lab.Ontology.empty, Lab.Ontology.add_part_of,
      Lab.Ontology.add_instance, Lab.Ontology.add_class, insertNew,
      insertEdge, updateAssoc, lookupAssoc, Lab.Ontology.liftInstance,
      Lab.Ontology.rel, Lab.reachAux, nbrs]

/-- C4 amended: for instance `i` assigned to class `C`, if `i` reaches
`W` directly, or `C` reaches the one-shot lifted form of `W` (the
assigned class of `W` when `W` is a registered instance, `W` itself
otherwise) by transitive `part_of` edges, then `part_of(i, W)` returns
true. -/
theorem C4_amended : ∀ (o : Lab.Ontology) (i C W : String),
    i ∈ o.instances → lookupAssoc o.instance_of i = some C →
    (o.reachable i W Lab.RelName.part_of = true
      ∨ o.reachable C (o.liftInstance W) Lab.RelName.part_of = true) →
    o.part_of i W = true :=
  fun _ _ _ _ hi hC h => Lab.Ontology.part_of_of_lifted hi hC h

theorem C4_witness :
    ((Lab.Ontology.empty.add_part_of "C" "W").add_instance "i" "C").part_of
      "i" "W" = true :=
  C4_amended _ "i" "C" "W" (by decide) (by decide)
    (Or.inr (by
      simp [Lab.Ontology.reachable, Lab.Ontology.empty,
        Lab.Ontology.add_part_of, Lab.Ontology.add_instance,
        Lab.Ontology.add_class, insertNew, insertEdge, updateAssoc,
        lookupAssoc, Lab.Ontology.liftInstance, Lab.Ontology.rel,
        Lab.reachAux, nbrs]))

/-- C5: every non-empty sequence returned by `any_path(a, b)` is a chain
of stored edges of the named relations, consecutively linked from `a` to
`b` (`ValidChain`), and `any_path` returns the absent result exactly
when `b` is unreachable from `a` over the union of all relations,
directed as stored. -/
theorem C5_any_path : ∀ (o : Lab.Ontology) (a b : String),
    (∀ path, o.any_path a b = some path → Lab.ValidChain o a path b)
      ∧ (o.any_path a b = none ↔ ¬ o.ReachU a b) :=
  fun o a b => Lab.any_path_spec o a b

theorem C5_witness :
    Lab.ValidChain Lab.storeC5 "a" [("a", Lab.RelName.is_a, "b")] "b" :=
  (C5_any_path Lab.storeC5 "a" "b").1 [("a", Lab.RelName.is_a, "b")]
    (by
      simp [Lab.Ontology.any_path, Lab.anyPathAux, Lab.pushNbrs,
        Lab.walkPath, Lab.prevKeys, Lab.Ontology.labeledNbrs, nbrs,
        Lab.storeC5, Lab.Ontology.empty, Lab.Ontology.add_is_a,
        Lab.Ontology.add_class, insertNew, insertEdge, Lab.Ontology.rel])

/-- C6: the structural validator fails a store with exactly 19 classes
with an error naming the class-count invariant and the offending count;
passes a store with 20 classes and an `is_a` chain of depth exactly 4
from the designated root "Computer Science" (the depth probe reports 4
and the whole validation succeeds); and fails a store whose leaf class
`a3` has exactly 1 assigned instance with an error naming that class and
the count.  (The Python validator raises `AssertionError` values
carrying exactly these messages; the spec calls this error
`OntologyInvariantError`.) -/
theorem C6_validator :
    Lab.store19.validate 1000
        = some (Except.error "Need >=20 classes, have 19")
      ∧ (Lab.store20.max_depth_from "Computer Science" 1000 = some 4
          ∧ Lab.store20.validate 1000 = some (Except.ok true))
      ∧ Lab.storeLeaf.validate 1000
          = some (Except.error
              "Leaf \"a3\" must have >=2 instances (has 1)") :=
  ⟨rfl, ⟨rfl, rfl⟩, rfl⟩

/-- C7 counterexample: the construction operations do not enforce
disjointness — after `add_is_a("x","y")` followed by
`add_instance("x","c")` the identifier `x` is registered both as a class
and as an instance. -/
theorem C7_counterexample :
    "x" ∈ (Lab.run [Lab.Op.add_is_a "x" "y",
        Lab.Op.add_instance "x" "c"]).classes
      ∧ "x" ∈ (Lab.run [Lab.Op.add_is_a "x" "y",
          Lab.Op.add_instance "x" "c"]).instances := by
  decide

/-- C7 amended: the class set and instance set of a constructed store
are drawn from the class-position and instance-position arguments of the
construction sequence respectively, so they are disjoint for every
sequence in which no identifier is used in both positions; the
operations themselves enforce nothing (see the counterexample). -/
theorem C7_amended : ∀ (ops : List Lab.Op),
    (∀ z ∈ Lab.instArgsOf ops, z ∉ Lab.classArgsOf ops) →
    ∀ z, z ∈ (Lab.run ops).classes → z ∉ (Lab.run ops).instances := by
  intro ops hdisj z hzc hzi
  rcases Lab.classes_foldl_sub ops Lab.Ontology.empty z hzc with h | h
  · cases h
  · rcases Lab.instances_foldl_sub ops Lab.Ontology.empty z hzi with h2 | h2
    · cases h2
    · exact hdisj z h2 h

theorem C7_witness :
    "a" ∉ (Lab.run [Lab.Op.add_class "a",
        Lab.Op.add_instance "i" "a"]).instances :=
  C7_amended [Lab.Op.add_class "a", Lab.Op.add_instance "i" "a"]
    (by decide) "a" (by decide)

/-- C8: reachability is reflexive.  In `lab_ontology.py`,
`_reachable(x, x, R)` returns true for every relation `R` and every
identifier `x` (the start is popped and compared with the target before
any edge is consulted), in particular for every `x` present in the
store; in `src/ontology.py`, `is_a_transitive(x, x)` returns true for
every identifier the store accepts (resolve succeeds). -/
theorem C8_reflexive :
    (∀ (o : Lab.Ontology) (rel : Lab.RelName) (x : String),
        x ∈ o.classes ∨ x ∈ o.instances → o.reachable x x rel = true)
      ∧ ∀ (x x2 : String), Src.resolve x = Except.ok x2 →
          Src.is_a_transitive x x = Except.ok true := by
  constructor
  · intro o rel x _
    exact Lab.Ontology.reachable_self o x rel
  · intro x x2 hx
    have heq : Src.is_a_transitive x x
        = if x2 = x2 then Except.ok true
          else Except.ok (Src.isaAux x2 [x2] []) := by
      unfold Src.is_a_transitive
      rw [hx]
    rw [heq, if_pos rfl]

theorem C8_witness :
    ((Lab.Ontology.empty.add_class "k").reachable "k" "k"
        Lab.RelName.is_a = true)
      ∧ Src.is_a_transitive "dog" "dog" = Except.ok true :=
  ⟨C8_reflexive.1 (Lab.Ontology.empty.add_class "k") Lab.RelName.is_a "k"
      (Or.inl (by decide)),
    C8_reflexive.2 "dog" "dog" rfl⟩

/-- C9: `connected` is symmetric on identifiers the store accepts — for
all `a`, `b` that `resolve` maps to canonical forms,
`connected(a, b) = connected(b, a)`; the undirected neighbor relation is
symmetric, so reachability over it is too, and the BFS decides exactly
that relation. -/
theorem C9_connected_symm : ∀ (a b a2 b2 : String),
    Src.resolve a = Except.ok a2 → Src.resolve b = Except.ok b2 →
    Src.connected a b = Src.connected b a :=
  fun _ _ _ _ hra hrb => Src.connected_symm_of_resolve hra hrb

theorem C9_witness :
    Src.connected "dog" "fur" = Src.connected "fur" "dog" :=
  C9_connected_symm "dog" "fur" "dog" "fur" rfl rfl

/-- C10 counterexample: instance `i` is assigned to class `C`, but
`part_of(i, C)` returns false because `C` is itself registered as an
instance of `D`, so the whole-side lifting replaces `C` by `D` and the
reflexive check compares `C` with `D`. -/
theorem C10_counterexample :
    ("i" ∈ Lab.storeC10.instances
        ∧ lookupAssoc Lab.storeC10.instance_of "i" = some "C")
      ∧ Lab.storeC10.part_of "i" "C" = false := by
  refine ⟨⟨by decide, by decide⟩, ?_⟩
  simp [Lab.Ontology.part_of, Lab.Ontology.reachable, Lab.storeC10,
    Lab.Ontology.empty, Lab.Ontology.add_instance, Lab.Ontology.add_class,
    insertNew, insertEdge, updateAssoc, lookupAssoc,
    Lab.Ontology.liftInstance, Lab.Ontology.rel, Lab.reachAux, nbrs]

/-- C10 amended: for every registered instance `i` with assigned class
`C`, provided `C` is not itself registered as an instance, `part_of(i,
C)` returns true even when no `part_of` edge involves `C` at all: the
lifting step replaces `i` by `C`, leaves `C` unchanged, and the
reflexive reachability check `start == target` succeeds. -/
theorem C10_amended : ∀ (o : Lab.Ontology) (i C : String),
    i ∈ o.instances → lookupAssoc o.instance_of i = some C →
    C ∉ o.instances → o.part_of i C = true := by
  intro o i C hi hC hCn
  refine Lab.Ontology.part_of_of_lifted hi hC (Or.inr ?_)
  have hlift : o.liftInstance C = C := by
    simp [Lab.Ontology.liftInstance, hCn]
  rw [hlift]
  exact Lab.Ontology.reachable_self o C Lab.RelName.part_of

theorem C10_witness :
    (Lab.Ontology.empty.add_instance "i" "C").part_of "i" "C" = true :=
  C10_amended (Lab.Ontology.empty.add_instance "i" "C") "i" "C"
    (by decide) (by decide) (by decide)

end Onto
